import Mathlib

/-!
Verification of the constraint-propagation sudoku solver (Norvig style).

The source program maintains, for each of the 81 squares, a string of
candidate digits.  We embed squares as `Fin 81` (row-major `A1`..`I9`,
square `r,c` being `9*r+c`), candidate strings as `List ℕ` (string order
preserved), and the mutable puzzle dictionary as a function
`Store := Fin 81 → List ℕ`.  A failed puzzle is `none : Option Store`;
the Python code returns an empty (falsy) dict in that case and no caller
ever reads a value out of a failed puzzle, so the `Option` model is exact.
The `count` field of the Python `Puzzle` class is bookkeeping for
statistics only and never influences any returned store, so it is not
modelled.

The mutually recursive pair `assign`/`eliminate` is embedded as a single
fuel-indexed step function `run` over a small call type; the official
(total) functions apply `run` at a fuel that is proved sufficient, so the
embedding is a genuine translation of the source recursion.
-/

namespace Sudoku

/-- Digits 1..9, mirroring the source string `digits = '123456789'`. -/
def digits : List ℕ := [1,2,3,4,5,6,7,8,9]

/-- A square of the board: row-major index, `A1` is 0, `I9` is 80. -/
abbrev Cell := Fin 81

/-- Square built from a row index and a column index (`cross` of one row
letter and one column digit in the source). -/
def rc (r c : Fin 9) : Cell :=
  ⟨r.val * 9 + c.val, by have hr := r.isLt; have hc := c.isLt; omega⟩

/-- All 81 squares in row-major order (`squares = cross(rows, cols)`). -/
def squares : List Cell :=
  (List.finRange 9).flatMap (fun r => (List.finRange 9).map (fun c => rc r c))

/-- The nine column units (`column_squares`). -/
def column_squares : List (List Cell) :=
  (List.finRange 9).map (fun c => (List.finRange 9).map (fun r => rc r c))

/-- The nine row units (`row_squares`). -/
def row_squares : List (List Cell) :=
  (List.finRange 9).map (fun r => (List.finRange 9).map (fun c => rc r c))

/-- Index groups `('ABC','DEF','GHI')` respectively `('123','456','789')`. -/
def groups : List (List (Fin 9)) := [[0,1,2],[3,4,5],[6,7,8]]

/-- The nine box units (`box_squares`). -/
def box_squares : List (List Cell) :=
  groups.flatMap (fun rs => groups.map (fun cs =>
    rs.flatMap (fun r => cs.map (fun c => rc r c))))

/-- All 27 units, in source order: columns, then rows, then boxes. -/
def unitlist : List (List Cell) := column_squares ++ row_squares ++ box_squares

/-- Units containing a given square (`units[s]`). -/
def units (s : Cell) : List (List Cell) :=
  unitlist.filter (fun u => decide (s ∈ u))

/-- Peers of a square: every other square sharing a unit with it
(`peers[s]`); the Python value is a set, realised here as a
deduplicated list. -/
def peers (s : Cell) : List Cell :=
  (((units s).flatten).filter (fun t => decide (t ≠ s))).dedup

/-- Candidate store: the `{square: digit-string}` dictionary. -/
abbrev Store := Cell → List ℕ

/-- Total number of remaining candidates over the whole board. -/
def total (p : Store) : ℕ := ∑ x : Fin 81, (p x).length

/-- Store with digit `d` removed from square `s`
(`puzzle[square] = puzzle[square].replace(digit, '')`). -/
def removeD (p : Store) (s : Cell) (d : ℕ) : Store :=
  Function.update p s ((p s).filter (fun e => decide (e ≠ d)))

/-- Calls of the `assign`/`eliminate` recursion: a single `eliminate`
call, the loop eliminating one digit from each of a list of squares
(body of `peer_eliminate`), the loop eliminating a list of digits from
one square (body of `assign`), and the loop over units
(body of `assign_unique_place`). -/
inductive Call : Type where
  | elim (p : Store) (s : Cell) (d : ℕ)
  | elimSeq (p : Store) (ts : List Cell) (d : ℕ)
  | assignSeq (p : Store) (s : Cell) (ds : List ℕ)
  | unitSeq (p : Store) (s : Cell) (d : ℕ) (us : List (List Cell))

/-- The store argument of a call. -/
def Call.store : Call → Store
  | .elim p _ _ => p
  | .elimSeq p _ _ => p
  | .assignSeq p _ _ => p
  | .unitSeq p _ _ _ => p

/-- Result of a fuel-bounded computation: `out` means the fuel ran out
(never happens at the official fuel, as proved below), `res none` is a
failed puzzle, `res (some p)` a successful store. -/
inductive PRes : Type where
  | out
  | res (r : Option Store)

/-- One step of the `assign`/`eliminate` recursion; `r` stands for the
recursive calls.  The `elim` case is `eliminate` with its inlined
`peer_eliminate` and `assign_unique_place` stages, the three sequence
cases are the loops of `peer_eliminate`, `assign` and
`assign_unique_place`. -/
def step (r : Call → PRes) : Call → PRes
  | .elim p s d =>
    if d ∈ p s then
      match removeD p s d s with
      | [] => .res none
      | [e] =>
        match r (.elimSeq (removeD p s d) (peers s) e) with
        | .out => .out
        | .res none => .res none
        | .res (some p2) => r (.unitSeq p2 s d (units s))
      | _ :: _ :: _ => r (.unitSeq (removeD p s d) s d (units s))
    else .res (some p)
  | .elimSeq p ts d =>
    match ts with
    | [] => .res (some p)
    | t :: ts2 =>
      match r (.elim p t d) with
      | .out => .out
      | .res none => .res none
      | .res (some p2) => r (.elimSeq p2 ts2 d)
  | .assignSeq p s ds =>
    match ds with
    | [] => .res (some p)
    | d :: ds2 =>
      match r (.elim p s d) with
      | .out => .out
      | .res none => .res none
      | .res (some p2) => r (.assignSeq p2 s ds2)
  | .unitSeq p s d us =>
    match us with
    | [] => .res (some p)
    | u :: us2 =>
      match u.filter (fun y => decide (d ∈ p y)) with
      | [] => .res none
      | [y] =>
        match r (.assignSeq p y ((p y).filter (fun e => decide (e ≠ d)))) with
        | .out => .out
        | .res none => .res none
        | .res (some p2) => r (.unitSeq p2 s d us2)
      | _ :: _ :: _ => r (.unitSeq p s d us2)

/-- The fuel-indexed interpreter of the mutual recursion: each
recursive call spends one unit of fuel. -/
def run : ℕ → Call → PRes
  | 0, _ => .out
  | f+1, c => step (run f) c

/-- Fuel that is sufficient for any entry point on store `p`
(sufficiency is proved below). -/
def elimFuel (p : Store) : ℕ := 50 * (total p + 2)^2 + total p + 1000

/-- Official `eliminate(puzzle, square, digit)`. -/
def eliminate (p : Store) (s : Cell) (d : ℕ) : Option Store :=
  match run (elimFuel p) (.elim p s d) with
  | .res r => r
  | .out => none

/-- Sequential elimination of one digit from each square of a list,
threading the store and short-circuiting on failure: the loop inside
`peer_eliminate`. -/
def elimList : Store → List Cell → ℕ → Option Store
  | p, [], _ => some p
  | p, t :: ts, d =>
    match eliminate p t d with
    | none => none
    | some p2 => elimList p2 ts d

/-- Official `peer_eliminate(puzzle, square)`: when the square has a
single remaining candidate, eliminate it from all peers. -/
def peer_eliminate (p : Store) (s : Cell) : Option Store :=
  match p s with
  | [e] => elimList p (peers s) e
  | _ => some p

/-- Sequential elimination of each digit in a list from one square:
the loop inside `assign`. -/
def assignList : Store → Cell → List ℕ → Option Store
  | p, _, [] => some p
  | p, s, d :: ds =>
    match eliminate p s d with
    | none => none
    | some p2 => assignList p2 s ds

/-- Official `assign(puzzle, square, digit)`: eliminate every other
candidate of the square. -/
def assign (p : Store) (s : Cell) (d : ℕ) : Option Store :=
  assignList p s ((p s).filter (fun e => decide (e ≠ d)))

/-- The loop of `assign_unique_place` over a list of units: if a unit
has no remaining place for the digit, fail; if exactly one, assign the
digit there. -/
def unitList : Store → Cell → ℕ → List (List Cell) → Option Store
  | p, _, _, [] => some p
  | p, s, d, u :: us =>
    match u.filter (fun y => decide (d ∈ p y)) with
    | [] => none
    | [y] =>
      match assign p y d with
      | none => none
      | some p2 => unitList p2 s d us
    | _ :: _ :: _ => unitList p s d us

/-- Official `assign_unique_place(puzzle, square, digit)`. -/
def assign_unique_place (p : Store) (s : Cell) (d : ℕ) : Option Store :=
  unitList p s d (units s)

lemma removeD_self (p : Store) (s : Cell) (d : ℕ) :
    removeD p s d s = (p s).filter (fun e => decide (e ≠ d)) := by
  unfold removeD; rw [Function.update_same]

lemma removeD_of_ne (p : Store) (s : Cell) (d : ℕ) {x : Cell} (hx : x ≠ s) :
    removeD p s d x = p x := by
  unfold removeD; rw [Function.update_noteq hx]

lemma removeD_sublist (p : Store) (s : Cell) (d : ℕ) (x : Cell) :
    List.Sublist (removeD p s d x) (p x) := by
  by_cases hx : x = s
  · subst hx; rw [removeD_self]; exact List.filter_sublist _
  · rw [removeD_of_ne p s d hx]

lemma run_zero (c : Call) : run 0 c = .out := rfl

lemma run_succ (f : ℕ) (c : Call) : run (f+1) c = step (run f) c := rfl

lemma step_sublist (r : Call → PRes)
    (hr : ∀ c p', r c = .res (some p') → ∀ x, List.Sublist (p' x) (c.store x)) :
    ∀ c p', step r c = .res (some p') → ∀ x, List.Sublist (p' x) (c.store x) := by
  intro c p' h x
  cases c with
  | elim p s d =>
    simp only [step] at h
    split at h
    · split at h
      · exact absurd h (by simp)
      · split at h
        · exact absurd h (by simp)
        · exact absurd h (by simp)
        · rename_i p2 hrun
          exact ((hr _ _ h x).trans (hr _ _ hrun x)).trans (removeD_sublist p s d x)
      · exact (hr _ _ h x).trans (removeD_sublist p s d x)
    · cases h; exact List.Sublist.refl _
  | elimSeq p ts d =>
    simp only [step] at h
    split at h
    · cases h; exact List.Sublist.refl _
    · split at h
      · exact absurd h (by simp)
      · exact absurd h (by simp)
      · rename_i p2 hrun
        exact (hr _ _ h x).trans (hr _ _ hrun x)
  | assignSeq p s ds =>
    simp only [step] at h
    split at h
    · cases h; exact List.Sublist.refl _
    · split at h
      · exact absurd h (by simp)
      · exact absurd h (by simp)
      · rename_i p2 hrun
        exact (hr _ _ h x).trans (hr _ _ hrun x)
  | unitSeq p s d us =>
    simp only [step] at h
    split at h
    · cases h; exact List.Sublist.refl _
    · split at h
      · exact absurd h (by simp)
      · split at h
        · exact absurd h (by simp)
        · exact absurd h (by simp)
        · rename_i p2 hrun
          exact (hr _ _ h x).trans (hr _ _ hrun x)
      · exact hr _ _ h x

/-- Every successful computation only shrinks candidate lists, cellwise,
in the strong (sublist) sense. -/
theorem run_sublist (f : ℕ) : ∀ (c : Call) (p' : Store),
    run f c = .res (some p') → ∀ x, List.Sublist (p' x) (c.store x) := by
  induction f with
  | zero => intro c p' h x; simp [run] at h
  | succ f ih => exact step_sublist (run f) ih

lemma step_nonempty (r : Call → PRes)
    (hr : ∀ c p', r c = .res (some p') → ∀ x, c.store x ≠ [] → p' x ≠ []) :
    ∀ c p', step r c = .res (some p') → ∀ x, c.store x ≠ [] → p' x ≠ [] := by
  intro c p' h x hx
  cases c with
  | elim p s d =>
    simp only [step] at h
    split at h
    · split at h
      · exact absurd h (by simp)
      · rename_i e hrm
        split at h
        · exact absurd h (by simp)
        · exact absurd h (by simp)
        · rename_i p2 hrun
          refine hr _ _ h x ?_
          refine hr _ _ hrun x ?_
          show removeD p s d x ≠ []
          by_cases hxs : x = s
          · subst hxs; rw [hrm]; simp
          · rw [removeD_of_ne p s d hxs]; exact hx
      · rename_i a b l hrm
        refine hr _ _ h x ?_
        show removeD p s d x ≠ []
        by_cases hxs : x = s
        · subst hxs; rw [hrm]; simp
        · rw [removeD_of_ne p s d hxs]; exact hx
    · cases h; exact hx
  | elimSeq p ts d =>
    simp only [step] at h
    split at h
    · cases h; exact hx
    · split at h
      · exact absurd h (by simp)
      · exact absurd h (by simp)
      · rename_i p2 hrun
        exact hr _ _ h x (hr _ _ hrun x hx)
  | assignSeq p s ds =>
    simp only [step] at h
    split at h
    · cases h; exact hx
    · split at h
      · exact absurd h (by simp)
      · exact absurd h (by simp)
      · rename_i p2 hrun
        exact hr _ _ h x (hr _ _ hrun x hx)
  | unitSeq p s d us =>
    simp only [step] at h
    split at h
    · cases h; exact hx
    · split at h
      · exact absurd h (by simp)
      · split at h
        · exact absurd h (by simp)
        · exact absurd h (by simp)
        · rename_i p2 hrun
          exact hr _ _ h x (hr _ _ hrun x hx)
      · exact hr _ _ h x hx

/-- Every successful computation keeps nonempty candidate lists
nonempty, cellwise. -/
theorem run_nonempty (f : ℕ) : ∀ (c : Call) (p' : Store),
    run f c = .res (some p') → ∀ x, c.store x ≠ [] → p' x ≠ [] := by
  induction f with
  | zero => intro c p' h; simp [run] at h
  | succ f ih => exact step_nonempty (run f) ih

lemma step_congr (r1 r2 : Call → PRes)
    (hr : ∀ c, r1 c ≠ .out → r2 c = r1 c) :
    ∀ c, step r1 c ≠ .out → step r2 c = step r1 c := by
  intro c h
  cases c with
  | elim p s d =>
    by_cases hd : d ∈ p s
    · rcases hrm : removeD p s d s with _ | ⟨e, _ | ⟨b, l⟩⟩
      · simp only [step, if_pos hd, hrm]
      · rcases h1 : r1 (.elimSeq (removeD p s d) (peers s) e) with _ | (_ | p2)
        · exact absurd (by simp only [step, if_pos hd, hrm, h1]) h
        · have hne : r1 (.elimSeq (removeD p s d) (peers s) e) ≠ .out := by simp [h1]
          simp only [step, if_pos hd, hrm, hr _ hne, h1]
        · have hne : r1 (.elimSeq (removeD p s d) (peers s) e) ≠ .out := by simp [h1]
          have h3 : r1 (.unitSeq p2 s d (units s)) ≠ .out := by
            intro hout
            exact h (by simp only [step, if_pos hd, hrm, h1, hout])
          simp only [step, if_pos hd, hrm, hr _ hne, h1, hr _ h3]
      · have h3 : r1 (.unitSeq (removeD p s d) s d (units s)) ≠ .out := by
          intro hout
          exact h (by simp only [step, if_pos hd, hrm, hout])
        simp only [step, if_pos hd, hrm, hr _ h3]
    · simp only [step, if_neg hd]
  | elimSeq p ts d =>
    cases ts with
    | nil => rfl
    | cons t ts2 =>
      rcases h1 : r1 (.elim p t d) with _ | (_ | p2)
      · exact absurd (by simp only [step, h1]) h
      · have hne : r1 (.elim p t d) ≠ .out := by simp [h1]
        simp only [step, hr _ hne, h1]
      · have hne : r1 (.elim p t d) ≠ .out := by simp [h1]
        have h3 : r1 (.elimSeq p2 ts2 d) ≠ .out := by
          intro hout; exact h (by simp only [step, h1, hout])
        simp only [step, hr _ hne, h1, hr _ h3]
  | assignSeq p s ds =>
    cases ds with
    | nil => rfl
    | cons d ds2 =>
      rcases h1 : r1 (.elim p s d) with _ | (_ | p2)
      · exact absurd (by simp only [step, h1]) h
      · have hne : r1 (.elim p s d) ≠ .out := by simp [h1]
        simp only [step, hr _ hne, h1]
      · have hne : r1 (.elim p s d) ≠ .out := by simp [h1]
        have h3 : r1 (.assignSeq p2 s ds2) ≠ .out := by
          intro hout; exact h (by simp only [step, h1, hout])
        simp only [step, hr _ hne, h1, hr _ h3]
  | unitSeq p s d us =>
    cases us with
    | nil => rfl
    | cons u us2 =>
      rcases hu : u.filter (fun y => decide (d ∈ p y)) with _ | ⟨y, _ | ⟨b, l⟩⟩
      · simp only [step, hu]
      · rcases h1 : r1 (.assignSeq p y ((p y).filter (fun e => decide (e ≠ d)))) with _ | (_ | p2)
        · exact absurd (by simp only [step, hu, h1]) h
        · have hne : r1 (.assignSeq p y ((p y).filter (fun e => decide (e ≠ d)))) ≠ .out := by
            intro hc; rw [h1] at hc; exact PRes.noConfusion hc
          simp only [step, hu, hr _ hne, h1]
        · have hne : r1 (.assignSeq p y ((p y).filter (fun e => decide (e ≠ d)))) ≠ .out := by
            intro hc; rw [h1] at hc; exact PRes.noConfusion hc
          have h3 : r1 (.unitSeq p2 s d us2) ≠ .out := by
            intro hout; exact h (by simp only [step, hu, h1, hout])
          simp only [step, hu, hr _ hne, h1, hr _ h3]
      · have h3 : r1 (.unitSeq p s d us2) ≠ .out := by
          intro hout; exact h (by simp only [step, hu, hout])
        simp only [step, hu, hr _ h3]

/-- More fuel does not change a computation that did not run out. -/
theorem run_le : ∀ (g f : ℕ), f ≤ g → ∀ (c : Call), run f c ≠ .out →
    run g c = run f c := by
  intro g
  induction g with
  | zero =>
    intro f h0 c h
    have : f = 0 := by omega
    subst this; rfl
  | succ g ih =>
    intro f hle c h
    cases f with
    | zero => exact absurd rfl h
    | succ f =>
      exact step_congr (run f) (run g) (fun c2 hc => ih f (by omega) c2 hc) c h

/-- Two sufficient fuels give the same result. -/
theorem run_eq_run {f g : ℕ} (c : Call) (hf : run f c ≠ .out) (hg : run g c ≠ .out) :
    run f c = run g c := by
  rcases Nat.le_total f g with h | h
  · exact (run_le g f h c hf).symm
  · exact run_le f g h c hg

lemma length_filter_lt_of_mem {α : Type} (q : α → Bool) {l : List α} {d : α}
    (hd : d ∈ l) (hq : q d = false) : (l.filter q).length < l.length := by
  induction l with
  | nil => cases hd
  | cons a l ih =>
    rw [List.filter_cons]
    by_cases hqa : q a = true
    · rw [if_pos hqa]
      have hdl : d ∈ l := by
        rcases List.mem_cons.mp hd with h | h
        · subst h; rw [hq] at hqa; cases hqa
        · exact h
      simpa using Nat.succ_lt_succ (ih hdl)
    · rw [if_neg hqa]
      calc (l.filter q).length ≤ l.length := List.length_filter_le _ _
        _ < (a :: l).length := by simp

set_option maxHeartbeats 1600000 in
set_option maxHeartbeats 1600000 in
lemma units_length : ∀ s : Cell, (units s).length = 3 := by decide

set_option maxHeartbeats 1600000 in
lemma peers_length : ∀ s : Cell, (peers s).length = 20 := by decide

lemma length_le_total (p : Store) (x : Cell) : (p x).length ≤ total p := by
  unfold total
  exact Finset.single_le_sum (f := fun i => (p i).length) (fun i _ => Nat.zero_le _)
    (Finset.mem_univ x)

lemma total_le_total (p q : Store) (h : ∀ x, (p x).length ≤ (q x).length) :
    total p ≤ total q :=
  Finset.sum_le_sum (fun i _ => h i)

lemma total_res_le {f : ℕ} {c : Call} {p' : Store}
    (h : run f c = .res (some p')) : total p' ≤ total c.store :=
  total_le_total _ _ (fun x => (run_sublist f c p' h x).length_le)

lemma total_removeD_le (p : Store) (s : Cell) (d : ℕ) :
    total (removeD p s d) ≤ total p :=
  total_le_total _ _ (fun x => (removeD_sublist p s d x).length_le)

lemma total_removeD_lt (p : Store) (s : Cell) (d : ℕ) (h : d ∈ p s) :
    total (removeD p s d) < total p := by
  unfold total
  refine Finset.sum_lt_sum (fun i _ => (removeD_sublist p s d i).length_le)
    ⟨s, Finset.mem_univ s, ?_⟩
  rw [removeD_self]
  exact length_filter_lt_of_mem _ h (by simp)

lemma total_elim_le {f : ℕ} {p : Store} {s : Cell} {d : ℕ} {p2 : Store}
    (h : run f (.elim p s d) = .res (some p2)) : total p2 ≤ total p := by
  have h2 := total_res_le h; exact h2

lemma total_elimSeq_le {f : ℕ} {p : Store} {ts : List Cell} {d : ℕ} {p2 : Store}
    (h : run f (.elimSeq p ts d) = .res (some p2)) : total p2 ≤ total p := by
  have h2 := total_res_le h; exact h2

lemma total_assignSeq_le {f : ℕ} {p : Store} {s : Cell} {ds : List ℕ} {p2 : Store}
    (h : run f (.assignSeq p s ds) = .res (some p2)) : total p2 ≤ total p := by
  have h2 := total_res_le h; exact h2

lemma total_unitSeq_le {f : ℕ} {p : Store} {s : Cell} {d : ℕ} {us : List (List Cell)}
    {p2 : Store} (h : run f (.unitSeq p s d us) = .res (some p2)) :
    total p2 ≤ total p := by
  have h2 := total_res_le h; exact h2

/-- Depth measure of a call: every recursive call of `step` strictly
decreases it, so it bounds the fuel needed. -/
def Fm : Call → ℕ
  | .elim p _ _ => 50 * (total p + 2)^2
  | .elimSeq p ts _ => 50 * (total p + 2)^2 + ts.length + 1
  | .assignSeq p _ ds => 50 * (total p + 2)^2 + ds.length + 1
  | .unitSeq p _ _ us => 50 * (total p + 2)^2 + total p + 10 * us.length + 60

lemma sq_le_sq {a b : ℕ} (h : a ≤ b) : a^2 ≤ b^2 := Nat.pow_le_pow_left h 2

/-- Fuel sufficiency: with fuel above the measure, the computation never
runs out of fuel.  This is the termination argument for the mutual
`assign`/`eliminate` recursion. -/
theorem run_no_out : ∀ (f : ℕ) (c : Call), Fm c < f → run f c ≠ .out := by
  intro f
  induction f with
  | zero => intro c h; exact absurd h (Nat.not_lt_zero _)
  | succ f ih =>
    intro c hFm
    have hFm2 : Fm c ≤ f := Nat.lt_succ_iff.mp hFm
    show step (run f) c ≠ .out
    cases c with
    | elim p s d =>
      by_cases hd : d ∈ p s
      · have hT1 : total (removeD p s d) < total p := total_removeD_lt p s d hd
        have hsq1 : (total (removeD p s d) + 2)^2 ≤ (total p + 1)^2 :=
          sq_le_sq (by linarith)
        have hring : 50 * (total p + 2)^2 = 50 * (total p + 1)^2 + 100 * total p + 150 := by
          ring
        have hFmc : Fm (.elim p s d) = 50 * (total p + 2)^2 := rfl
        rw [hFmc] at hFm2
        rcases hrm : removeD p s d s with _ | ⟨e, _ | ⟨b, l⟩⟩
        · simp only [step, if_pos hd, hrm]
          exact fun hc => PRes.noConfusion hc
        · have hmul : 50 * (total (removeD p s d) + 2)^2 ≤ 50 * (total p + 1)^2 :=
            Nat.mul_le_mul_left _ hsq1
          have hsub : Fm (.elimSeq (removeD p s d) (peers s) e) < f := by
            have : Fm (.elimSeq (removeD p s d) (peers s) e)
                = 50 * (total (removeD p s d) + 2)^2 + (peers s).length + 1 := rfl
            rw [this, peers_length]
            linarith
          rcases h1 : run f (.elimSeq (removeD p s d) (peers s) e) with _ | (_ | p2)
          · exact absurd h1 (ih _ hsub)
          · simp only [step, if_pos hd, hrm, h1]
            exact fun hc => PRes.noConfusion hc
          · have hT2 : total p2 ≤ total (removeD p s d) := total_elimSeq_le h1
            have hsub2 : Fm (.unitSeq p2 s d (units s)) < f := by
              have heq : Fm (.unitSeq p2 s d (units s))
                  = 50 * (total p2 + 2)^2 + total p2 + 10 * (units s).length + 60 := rfl
              rw [heq, units_length]
              have hsq2 : (total p2 + 2)^2 ≤ (total p + 1)^2 := sq_le_sq (by linarith)
              have hmul2 : 50 * (total p2 + 2)^2 ≤ 50 * (total p + 1)^2 :=
                Nat.mul_le_mul_left _ hsq2
              linarith
            simp only [step, if_pos hd, hrm, h1]
            exact ih _ hsub2
        · have hmul : 50 * (total (removeD p s d) + 2)^2 ≤ 50 * (total p + 1)^2 :=
            Nat.mul_le_mul_left _ hsq1
          have hsub : Fm (.unitSeq (removeD p s d) s d (units s)) < f := by
            have heq : Fm (.unitSeq (removeD p s d) s d (units s))
                = 50 * (total (removeD p s d) + 2)^2 + total (removeD p s d)
                  + 10 * (units s).length + 60 := rfl
            rw [heq, units_length]
            linarith
          simp only [step, if_pos hd, hrm]
          exact ih _ hsub
      · simp only [step, if_neg hd]
        exact fun hc => PRes.noConfusion hc
    | elimSeq p ts d =>
      cases ts with
      | nil => simp only [step]; exact fun hc => PRes.noConfusion hc
      | cons t ts2 =>
        have hFmc : Fm (.elimSeq p (t :: ts2) d)
            = 50 * (total p + 2)^2 + (ts2.length + 1) + 1 := by
          simp only [Fm, List.length_cons]
        rw [hFmc] at hFm2
        have hsub : Fm (.elim p t d) < f := by
          have : Fm (.elim p t d) = 50 * (total p + 2)^2 := rfl
          rw [this]; linarith
        rcases h1 : run f (.elim p t d) with _ | (_ | p2)
        · exact absurd h1 (ih _ hsub)
        · simp only [step, h1]; exact fun hc => PRes.noConfusion hc
        · have hT2 : total p2 ≤ total p := total_elim_le h1
          have hsub2 : Fm (.elimSeq p2 ts2 d) < f := by
            have heq : Fm (.elimSeq p2 ts2 d)
                = 50 * (total p2 + 2)^2 + ts2.length + 1 := rfl
            rw [heq]
            have hmul : 50 * (total p2 + 2)^2 ≤ 50 * (total p + 2)^2 :=
              Nat.mul_le_mul_left _ (sq_le_sq (by linarith))
            linarith
          simp only [step, h1]
          exact ih _ hsub2
    | assignSeq p s ds =>
      cases ds with
      | nil => simp only [step]; exact fun hc => PRes.noConfusion hc
      | cons d ds2 =>
        have hFmc : Fm (.assignSeq p s (d :: ds2))
            = 50 * (total p + 2)^2 + (ds2.length + 1) + 1 := by
          simp only [Fm, List.length_cons]
        rw [hFmc] at hFm2
        have hsub : Fm (.elim p s d) < f := by
          have : Fm (.elim p s d) = 50 * (total p + 2)^2 := rfl
          rw [this]; linarith
        rcases h1 : run f (.elim p s d) with _ | (_ | p2)
        · exact absurd h1 (ih _ hsub)
        · simp only [step, h1]; exact fun hc => PRes.noConfusion hc
        · have hT2 : total p2 ≤ total p := total_elim_le h1
          have hsub2 : Fm (.assignSeq p2 s ds2) < f := by
            have heq : Fm (.assignSeq p2 s ds2)
                = 50 * (total p2 + 2)^2 + ds2.length + 1 := rfl
            rw [heq]
            have hmul : 50 * (total p2 + 2)^2 ≤ 50 * (total p + 2)^2 :=
              Nat.mul_le_mul_left _ (sq_le_sq (by linarith))
            linarith
          simp only [step, h1]
          exact ih _ hsub2
    | unitSeq p s d us =>
      cases us with
      | nil => simp only [step]; exact fun hc => PRes.noConfusion hc
      | cons u us2 =>
        have hFmc : Fm (.unitSeq p s d (u :: us2))
            = 50 * (total p + 2)^2 + total p + 10 * (us2.length + 1) + 60 := by
          simp only [Fm, List.length_cons]
        rw [hFmc] at hFm2
        rcases hu : u.filter (fun y => decide (d ∈ p y)) with _ | ⟨y, _ | ⟨b, l⟩⟩
        · simp only [step, hu]; exact fun hc => PRes.noConfusion hc
        · have hlen : ((p y).filter (fun e => decide (e ≠ d))).length ≤ total p :=
            le_trans (List.length_filter_le _ _) (length_le_total p y)
          have hsub : Fm (.assignSeq p y ((p y).filter (fun e => decide (e ≠ d)))) < f := by
            have heq : Fm (.assignSeq p y ((p y).filter (fun e => decide (e ≠ d))))
                = 50 * (total p + 2)^2
                  + ((p y).filter (fun e => decide (e ≠ d))).length + 1 := rfl
            rw [heq]; linarith
          rcases h1 : run f (.assignSeq p y ((p y).filter (fun e => decide (e ≠ d))))
            with _ | (_ | p2)
          · exact absurd h1 (ih _ hsub)
          · simp only [step, hu, h1]; exact fun hc => PRes.noConfusion hc
          · have hT2 : total p2 ≤ total p := total_assignSeq_le h1
            have hsub2 : Fm (.unitSeq p2 s d us2) < f := by
              have heq : Fm (.unitSeq p2 s d us2)
                  = 50 * (total p2 + 2)^2 + total p2 + 10 * us2.length + 60 := rfl
              rw [heq]
              have hmul : 50 * (total p2 + 2)^2 ≤ 50 * (total p + 2)^2 :=
                Nat.mul_le_mul_left _ (sq_le_sq (by linarith))
              linarith
            simp only [step, hu, h1]
            exact ih _ hsub2
        · have hsub : Fm (.unitSeq p s d us2) < f := by
            have heq : Fm (.unitSeq p s d us2)
                = 50 * (total p + 2)^2 + total p + 10 * us2.length + 60 := rfl
            rw [heq]; linarith
          simp only [step, hu]
          exact ih _ hsub

lemma eliminate_run {p : Store} {s : Cell} {d : ℕ} {r : Option Store}
    (h : eliminate p s d = r) : run (elimFuel p) (.elim p s d) = .res r := by
  have hlt : Fm (.elim p s d) < elimFuel p := by
    have h1 : Fm (.elim p s d) = 50 * (total p + 2)^2 := rfl
    have h2 : elimFuel p = 50 * (total p + 2)^2 + total p + 1000 := rfl
    rw [h1, h2]; linarith
  rcases hr : run (elimFuel p) (.elim p s d) with _ | r2
  · exact absurd hr (run_no_out _ _ hlt)
  · unfold eliminate at h
    rw [hr] at h
    simp only at h
    rw [h]

/-- At any sufficient fuel, an `elim` call computes official `eliminate`. -/
lemma run_elim_eq {f : ℕ} (p : Store) (s : Cell) (d : ℕ)
    (hf : Fm (.elim p s d) < f) : run f (.elim p s d) = .res (eliminate p s d) := by
  have h1 := eliminate_run (rfl : eliminate p s d = eliminate p s d)
  have hlt : Fm (.elim p s d) < elimFuel p := by
    have ha : Fm (.elim p s d) = 50 * (total p + 2)^2 := rfl
    have hb : elimFuel p = 50 * (total p + 2)^2 + total p + 1000 := rfl
    rw [ha, hb]; linarith
  calc run f (.elim p s d) = run (elimFuel p) (.elim p s d) :=
        run_eq_run _ (run_no_out _ _ hf) (run_no_out _ _ hlt)
    _ = .res (eliminate p s d) := h1

lemma eliminate_sublist {p : Store} {s : Cell} {d : ℕ} {p2 : Store}
    (h : eliminate p s d = some p2) : ∀ x, List.Sublist (p2 x) (p x) :=
  run_sublist _ _ _ (eliminate_run h)

lemma eliminate_total_le {p : Store} {s : Cell} {d : ℕ} {p2 : Store}
    (h : eliminate p s d = some p2) : total p2 ≤ total p :=
  total_elim_le (eliminate_run h)

lemma eliminate_nonempty {p : Store} {s : Cell} {d : ℕ} {p2 : Store}
    (h : eliminate p s d = some p2) : ∀ x, p x ≠ [] → p2 x ≠ [] :=
  run_nonempty _ _ _ (eliminate_run h)

/-- At any sufficient fuel, an `elimSeq` call computes `elimList`. -/
lemma run_elimSeq_eq {ts : List Cell} : ∀ {f : ℕ} (p : Store) (d : ℕ),
    Fm (.elimSeq p ts d) < f → run f (.elimSeq p ts d) = .res (elimList p ts d) := by
  induction ts with
  | nil =>
    intro f p d hf
    cases f with
    | zero => exact absurd hf (Nat.not_lt_zero _)
    | succ f => simp only [run_succ, step, elimList]
  | cons t ts2 ih =>
    intro f p d hf
    cases f with
    | zero => exact absurd hf (Nat.not_lt_zero _)
    | succ f =>
      have hFm2 : Fm (.elimSeq p (t :: ts2) d) ≤ f := Nat.lt_succ_iff.mp hf
      have hFmc : Fm (.elimSeq p (t :: ts2) d)
          = 50 * (total p + 2)^2 + (ts2.length + 1) + 1 := by
        simp only [Fm, List.length_cons]
      rw [hFmc] at hFm2
      have hsub : Fm (.elim p t d) < f := by
        have : Fm (.elim p t d) = 50 * (total p + 2)^2 := rfl
        rw [this]; linarith
      rw [run_succ]
      show (match run f (.elim p t d) with
        | PRes.out => PRes.out
        | PRes.res none => PRes.res none
        | PRes.res (some p2) => run f (.elimSeq p2 ts2 d)) = .res (elimList p (t :: ts2) d)
      rw [run_elim_eq p t d hsub]
      rcases he : eliminate p t d with _ | p2
      · simp only [elimList, he]
      · have hT2 : total p2 ≤ total p := eliminate_total_le he
        have hsub2 : Fm (.elimSeq p2 ts2 d) < f := by
          have heq : Fm (.elimSeq p2 ts2 d)
              = 50 * (total p2 + 2)^2 + ts2.length + 1 := rfl
          rw [heq]
          have hmul : 50 * (total p2 + 2)^2 ≤ 50 * (total p + 2)^2 :=
            Nat.mul_le_mul_left _ (sq_le_sq (by linarith))
          linarith
        simp only [elimList, he]
        exact ih p2 d hsub2

/-- At any sufficient fuel, an `assignSeq` call computes `assignList`. -/
lemma run_assignSeq_eq {ds : List ℕ} : ∀ {f : ℕ} (p : Store) (s : Cell),
    Fm (.assignSeq p s ds) < f → run f (.assignSeq p s ds) = .res (assignList p s ds) := by
  induction ds with
  | nil =>
    intro f p s hf
    cases f with
    | zero => exact absurd hf (Nat.not_lt_zero _)
    | succ f => simp only [run_succ, step, assignList]
  | cons d ds2 ih =>
    intro f p s hf
    cases f with
    | zero => exact absurd hf (Nat.not_lt_zero _)
    | succ f =>
      have hFm2 : Fm (.assignSeq p s (d :: ds2)) ≤ f := Nat.lt_succ_iff.mp hf
      have hFmc : Fm (.assignSeq p s (d :: ds2))
          = 50 * (total p + 2)^2 + (ds2.length + 1) + 1 := by
        simp only [Fm, List.length_cons]
      rw [hFmc] at hFm2
      have hsub : Fm (.elim p s d) < f := by
        have : Fm (.elim p s d) = 50 * (total p + 2)^2 := rfl
        rw [this]; linarith
      rw [run_succ]
      show (match run f (.elim p s d) with
        | PRes.out => PRes.out
        | PRes.res none => PRes.res none
        | PRes.res (some p2) => run f (.assignSeq p2 s ds2)) = .res (assignList p s (d :: ds2))
      rw [run_elim_eq p s d hsub]
      rcases he : eliminate p s d with _ | p2
      · simp only [assignList, he]
      · have hT2 : total p2 ≤ total p := eliminate_total_le he
        have hsub2 : Fm (.assignSeq p2 s ds2) < f := by
          have heq : Fm (.assignSeq p2 s ds2)
              = 50 * (total p2 + 2)^2 + ds2.length + 1 := rfl
          rw [heq]
          have hmul : 50 * (total p2 + 2)^2 ≤ 50 * (total p + 2)^2 :=
            Nat.mul_le_mul_left _ (sq_le_sq (by linarith))
          linarith
        simp only [assignList, he]
        exact ih p2 s hsub2

lemma assign_sublist {p : Store} {s : Cell} {d : ℕ} {p2 : Store}
    (h : assign p s d = some p2) : ∀ x, List.Sublist (p2 x) (p x) := by
  unfold assign at h
  have hb := run_assignSeq_eq (f := Fm (.assignSeq p s ((p s).filter (fun e => decide (e ≠ d)))) + 1)
    p s (Nat.lt_succ_self _)
  rw [h] at hb
  exact run_sublist _ _ _ hb

lemma assign_total_le {p : Store} {s : Cell} {d : ℕ} {p2 : Store}
    (h : assign p s d = some p2) : total p2 ≤ total p :=
  total_le_total _ _ (fun x => (assign_sublist h x).length_le)

lemma assign_nonempty {p : Store} {s : Cell} {d : ℕ} {p2 : Store}
    (h : assign p s d = some p2) : ∀ x, p x ≠ [] → p2 x ≠ [] := by
  unfold assign at h
  have hb := run_assignSeq_eq (f := Fm (.assignSeq p s ((p s).filter (fun e => decide (e ≠ d)))) + 1)
    p s (Nat.lt_succ_self _)
  rw [h] at hb
  exact run_nonempty _ _ _ hb

/-- At any sufficient fuel, a `unitSeq` call computes `unitList`. -/
lemma run_unitSeq_eq {us : List (List Cell)} : ∀ {f : ℕ} (p : Store) (s : Cell) (d : ℕ),
    Fm (.unitSeq p s d us) < f → run f (.unitSeq p s d us) = .res (unitList p s d us) := by
  induction us with
  | nil =>
    intro f p s d hf
    cases f with
    | zero => exact absurd hf (Nat.not_lt_zero _)
    | succ f => simp only [run_succ, step, unitList]
  | cons u us2 ih =>
    intro f p s d hf
    cases f with
    | zero => exact absurd hf (Nat.not_lt_zero _)
    | succ f =>
      have hFm2 : Fm (.unitSeq p s d (u :: us2)) ≤ f := Nat.lt_succ_iff.mp hf
      have hFmc : Fm (.unitSeq p s d (u :: us2))
          = 50 * (total p + 2)^2 + total p + 10 * (us2.length + 1) + 60 := by
        simp only [Fm, List.length_cons]
      rw [hFmc] at hFm2
      rw [run_succ]
      show (match u.filter (fun y => decide (d ∈ p y)) with
        | [] => PRes.res none
        | [y] =>
          match run f (.assignSeq p y ((p y).filter (fun e => decide (e ≠ d)))) with
          | PRes.out => PRes.out
          | PRes.res none => PRes.res none
          | PRes.res (some p2) => run f (.unitSeq p2 s d us2)
        | _ :: _ :: _ => run f (.unitSeq p s d us2)) = .res (unitList p s d (u :: us2))
      rcases hu : u.filter (fun y => decide (d ∈ p y)) with _ | ⟨y, _ | ⟨b, l⟩⟩
      · simp only [unitList, hu]
      · have hlen : ((p y).filter (fun e => decide (e ≠ d))).length ≤ total p :=
          le_trans (List.length_filter_le _ _) (length_le_total p y)
        have hsub : Fm (.assignSeq p y ((p y).filter (fun e => decide (e ≠ d)))) < f := by
          have heq : Fm (.assignSeq p y ((p y).filter (fun e => decide (e ≠ d))))
              = 50 * (total p + 2)^2
                + ((p y).filter (fun e => decide (e ≠ d))).length + 1 := rfl
          rw [heq]; linarith
        show (match run f (.assignSeq p y ((p y).filter (fun e => decide (e ≠ d)))) with
          | PRes.out => PRes.out
          | PRes.res none => PRes.res none
          | PRes.res (some p2) => run f (.unitSeq p2 s d us2))
          = .res (unitList p s d (u :: us2))
        rw [run_assignSeq_eq p y hsub]
        have hassign : assignList p y ((p y).filter (fun e => decide (e ≠ d)))
            = assign p y d := rfl
        rw [hassign]
        rcases ha : assign p y d with _ | p2
        · simp only [unitList, hu, ha]
        · have hT2 : total p2 ≤ total p := assign_total_le ha
          have hsub2 : Fm (.unitSeq p2 s d us2) < f := by
            have heq : Fm (.unitSeq p2 s d us2)
                = 50 * (total p2 + 2)^2 + total p2 + 10 * us2.length + 60 := rfl
            rw [heq]
            have hmul : 50 * (total p2 + 2)^2 ≤ 50 * (total p + 2)^2 :=
              Nat.mul_le_mul_left _ (sq_le_sq (by linarith))
            linarith
          simp only [unitList, hu, ha]
          exact ih p2 s d hsub2
      · have hsub : Fm (.unitSeq p s d us2) < f := by
          have heq : Fm (.unitSeq p s d us2)
              = 50 * (total p + 2)^2 + total p + 10 * us2.length + 60 := rfl
          rw [heq]; linarith
        simp only [unitList, hu]
        exact ih p s d hsub

lemma elimList_run {p : Store} {ts : List Cell} {d : ℕ} {r : Option Store}
    (h : elimList p ts d = r) :
    run (Fm (.elimSeq p ts d) + 1) (.elimSeq p ts d) = .res r := by
  rw [run_elimSeq_eq p d (Nat.lt_succ_self _), h]

lemma assignList_run {p : Store} {s : Cell} {ds : List ℕ} {r : Option Store}
    (h : assignList p s ds = r) :
    run (Fm (.assignSeq p s ds) + 1) (.assignSeq p s ds) = .res r := by
  rw [run_assignSeq_eq p s (Nat.lt_succ_self _), h]

lemma unitList_run {p : Store} {s : Cell} {d : ℕ} {us : List (List Cell)} {r : Option Store}
    (h : unitList p s d us = r) :
    run (Fm (.unitSeq p s d us) + 1) (.unitSeq p s d us) = .res r := by
  rw [run_unitSeq_eq p s d (Nat.lt_succ_self _), h]

lemma elimList_sublist {p : Store} {ts : List Cell} {d : ℕ} {p2 : Store}
    (h : elimList p ts d = some p2) : ∀ x, List.Sublist (p2 x) (p x) :=
  run_sublist _ _ _ (elimList_run h)

lemma elimList_total_le {p : Store} {ts : List Cell} {d : ℕ} {p2 : Store}
    (h : elimList p ts d = some p2) : total p2 ≤ total p :=
  total_elimSeq_le (elimList_run h)

lemma elimList_nonempty {p : Store} {ts : List Cell} {d : ℕ} {p2 : Store}
    (h : elimList p ts d = some p2) : ∀ x, p x ≠ [] → p2 x ≠ [] :=
  run_nonempty _ _ _ (elimList_run h)

lemma assignList_sublist {p : Store} {s : Cell} {ds : List ℕ} {p2 : Store}
    (h : assignList p s ds = some p2) : ∀ x, List.Sublist (p2 x) (p x) :=
  run_sublist _ _ _ (assignList_run h)

lemma unitList_sublist {p : Store} {s : Cell} {d : ℕ} {us : List (List Cell)} {p2 : Store}
    (h : unitList p s d us = some p2) : ∀ x, List.Sublist (p2 x) (p x) :=
  run_sublist _ _ _ (unitList_run h)

lemma unitList_total_le {p : Store} {s : Cell} {d : ℕ} {us : List (List Cell)} {p2 : Store}
    (h : unitList p s d us = some p2) : total p2 ≤ total p :=
  total_unitSeq_le (unitList_run h)

lemma unitList_nonempty {p : Store} {s : Cell} {d : ℕ} {us : List (List Cell)} {p2 : Store}
    (h : unitList p s d us = some p2) : ∀ x, p x ≠ [] → p2 x ≠ [] :=
  run_nonempty _ _ _ (unitList_run h)

lemma elimFuel_pos (p : Store) : 1 ≤ elimFuel p := by
  have h : elimFuel p = 50 * (total p + 2)^2 + total p + 1000 := rfl
  rw [h]
  exact le_trans (by norm_num) (Nat.le_add_left 1000 _)

/-- Idempotence guard of `eliminate`: a digit already absent is a no-op
success, leaving the store untouched. -/
theorem eliminate_of_not_mem (p : Store) (s : Cell) (d : ℕ) (hd : d ∉ p s) :
    eliminate p s d = some p := by
  obtain ⟨g, hg⟩ : ∃ g, elimFuel p = g + 1 :=
    ⟨elimFuel p - 1, by have := elimFuel_pos p; omega⟩
  unfold eliminate
  rw [hg, run_succ]
  simp only [step, if_neg hd]

/-- Unfolding of `eliminate` in the case the digit is present: remove it,
fail if the square is emptied, otherwise run the peer-elimination stage
(when a single candidate remains) and then the unique-place stage. -/
theorem eliminate_eq (p : Store) (s : Cell) (d : ℕ) (hd : d ∈ p s) :
    eliminate p s d =
      match removeD p s d s with
      | [] => none
      | [e] =>
        (match elimList (removeD p s d) (peers s) e with
         | none => none
         | some p2 => unitList p2 s d (units s))
      | _ :: _ :: _ => unitList (removeD p s d) s d (units s) := by
  obtain ⟨g, hg⟩ : ∃ g, elimFuel p = g + 1 :=
    ⟨elimFuel p - 1, by have := elimFuel_pos p; omega⟩
  have hgval : 50 * (total p + 2)^2 + total p + 1000 = g + 1 := hg
  have hT1 : total (removeD p s d) ≤ total p := total_removeD_le p s d
  rcases hrm : removeD p s d s with _ | ⟨e, _ | ⟨b, l⟩⟩
  · unfold eliminate
    rw [hg, run_succ]
    simp only [step, if_pos hd, hrm]
  · have hsub : Fm (.elimSeq (removeD p s d) (peers s) e) < g := by
      have heq : Fm (.elimSeq (removeD p s d) (peers s) e)
          = 50 * (total (removeD p s d) + 2)^2 + (peers s).length + 1 := rfl
      rw [heq, peers_length]
      have hmul : 50 * (total (removeD p s d) + 2)^2 ≤ 50 * (total p + 2)^2 :=
        Nat.mul_le_mul_left _ (sq_le_sq (by linarith))
      linarith
    unfold eliminate
    rw [hg, run_succ]
    simp only [step, if_pos hd, hrm, run_elimSeq_eq _ _ hsub]
    rcases hel : elimList (removeD p s d) (peers s) e with _ | p2
    · simp only [hel]
    · have hT2 : total p2 ≤ total (removeD p s d) := elimList_total_le hel
      have hsub2 : Fm (.unitSeq p2 s d (units s)) < g := by
        have heq : Fm (.unitSeq p2 s d (units s))
            = 50 * (total p2 + 2)^2 + total p2 + 10 * (units s).length + 60 := rfl
        rw [heq, units_length]
        have hmul : 50 * (total p2 + 2)^2 ≤ 50 * (total p + 2)^2 :=
          Nat.mul_le_mul_left _ (sq_le_sq (by linarith))
        linarith
      simp only [hel, run_unitSeq_eq _ _ _ hsub2]
  · have hsub : Fm (.unitSeq (removeD p s d) s d (units s)) < g := by
      have heq : Fm (.unitSeq (removeD p s d) s d (units s))
          = 50 * (total (removeD p s d) + 2)^2 + total (removeD p s d)
            + 10 * (units s).length + 60 := rfl
      rw [heq, units_length]
      have hmul : 50 * (total (removeD p s d) + 2)^2 ≤ 50 * (total p + 2)^2 :=
        Nat.mul_le_mul_left _ (sq_le_sq (by linarith))
      linarith
    unfold eliminate
    rw [hg, run_succ]
    simp only [step, if_pos hd, hrm, run_unitSeq_eq _ _ _ hsub]

/-- The same unfolding, phrased through the official `peer_eliminate`
and `assign_unique_place` functions, exactly following the source. -/
theorem eliminate_eq_stages (p : Store) (s : Cell) (d : ℕ) (hd : d ∈ p s) :
    eliminate p s d =
      (if removeD p s d s = [] then none
       else (peer_eliminate (removeD p s d) s).bind
         (fun p2 => assign_unique_place p2 s d)) := by
  rcases hrm : removeD p s d s with _ | ⟨e, _ | ⟨b, l⟩⟩
  · simp [eliminate_eq p s d hd, hrm]
  · rcases hel : elimList (removeD p s d) (peers s) e with _ | p2 <;>
      simp [eliminate_eq p s d hd, hrm, peer_eliminate, assign_unique_place, hel]
  · simp [eliminate_eq p s d hd, hrm, peer_eliminate, assign_unique_place]

lemma eliminate_total_lt {p : Store} {s : Cell} {d : ℕ} {p2 : Store}
    (hd : d ∈ p s) (h : eliminate p s d = some p2) : total p2 < total p := by
  have hlt : total (removeD p s d) < total p := total_removeD_lt p s d hd
  rw [eliminate_eq p s d hd] at h
  rcases hrm : removeD p s d s with _ | ⟨e, _ | ⟨b, l⟩⟩ <;> simp only [hrm] at h
  · exact absurd h (by simp)
  · rcases hel : elimList (removeD p s d) (peers s) e with _ | p3 <;> simp only [hel] at h
    · exact absurd h (by simp)
    · have h1 : total p3 ≤ total (removeD p s d) := elimList_total_le hel
      have h2 : total p2 ≤ total p3 := unitList_total_le h
      linarith
  · have h2 : total p2 ≤ total (removeD p s d) := unitList_total_le h
    linarith

lemma assign_total_lt {p : Store} {s : Cell} {d : ℕ} {p2 : Store}
    (hlen : 2 ≤ (p s).length) (hnd : (p s).Nodup)
    (h : assign p s d = some p2) : total p2 < total p := by
  unfold assign at h
  rcases hot : (p s).filter (fun e => decide (e ≠ d)) with _ | ⟨e, rest⟩
  · exfalso
    have hsub : ∀ x ∈ p s, x = d := by
      intro x hx
      by_contra hxd
      have : x ∈ (p s).filter (fun e => decide (e ≠ d)) :=
        List.mem_filter.mpr ⟨hx, by simpa using hxd⟩
      rw [hot] at this
      cases this
    rcases hps : p s with _ | ⟨a, _ | ⟨a2, l2⟩⟩
    · rw [hps] at hlen; simp at hlen
    · rw [hps] at hlen; simp at hlen
    · rw [hps] at hnd hsub
      have ha : a = d := hsub a (by simp)
      have ha2 : a2 = d := hsub a2 (by simp)
      subst ha; subst ha2
      simp at hnd
  · rw [hot] at h
    have he : e ∈ p s := (List.mem_filter.mp (hot ▸ List.mem_cons_self e rest)).1
    unfold assignList at h
    rcases hem : eliminate p s e with _ | p3 <;> rw [hem] at h
    · exact absurd h (by simp)
    · have h1 : total p3 < total p := eliminate_total_lt he hem
      have h4 : assignList p3 s rest = some p2 := h
      have h2 : total p2 ≤ total p3 := by
        have hb : run (Fm (.assignSeq p3 s rest) + 1) (.assignSeq p3 s rest)
            = .res (assignList p3 s rest) := assignList_run rfl
        rw [h4] at hb
        exact total_assignSeq_le hb
      linarith

/-- Set of the nine singleton digit strings, the value of the Python
expression `set(digits)` compared against in `is_solved`. -/
def digitsSingles : Finset (List ℕ) := (digits.map (fun d => [d])).toFinset

/-- Pythonic `unitsolved(unit)`: the set of candidate strings of the
squares of the unit equals the set of nine singleton digit strings. -/
def unitsolved (p : Store) (u : List Cell) : Bool :=
  decide ((u.map p).toFinset = digitsSingles)

/-- Official `is_solved` restricted to a live store. -/
def is_solvedB (p : Store) : Bool := unitlist.all (unitsolved p)

/-- Official `is_solved(puzzle)`: false on a failed puzzle, otherwise
every unit reads as a permutation of the digits 1 to 9. -/
def is_solved (r : Option Store) : Bool :=
  match r with
  | none => false
  | some p => is_solvedB p

/-- Lexicographic comparison of `(possibilities, square)` pairs, the
order used by the Python `min` over tuples. -/
def pairLt (a b : ℕ × Cell) : Bool :=
  decide (a.1 < b.1) || (decide (a.1 = b.1) && decide (a.2 < b.2))

/-- The Python `min((len(puzzle[s]), s) for s in squares if
len(puzzle[s]) > 1)`: `none` when the generator is empty (where the
Python code would raise `ValueError`). -/
def chooseMin (p : Store) : Option (ℕ × Cell) :=
  match squares.filter (fun s => decide (1 < (p s).length)) with
  | [] => none
  | s0 :: rest =>
    some (rest.foldl (fun b s =>
      if pairLt ((p s).length, s) b then ((p s).length, s) else b)
      ((p s0).length, s0))

/-- Calls of the `search`/`first_valid_result` recursion. -/
inductive SCall : Type where
  | sea (r : Option Store)
  | fvr (p : Store) (s : Cell) (ds : List ℕ)

/-- Result of a fuel-bounded search: `out` means out of fuel, `err`
models the `ValueError` the Python `min` raises on an empty generator,
`res` is a returned puzzle. -/
inductive SRes : Type where
  | out
  | err
  | res (r : Option Store)

/-- One step of `search`/`first_valid_result`; `r` stands for the
recursive calls.  The store copied in the source
(`assign(puzzle.copy(), square, values[0])`) needs no explicit copy in
this functional embedding. -/
def stepS (r : SCall → SRes) : SCall → SRes
  | .sea none => .res none
  | .sea (some p) =>
    if is_solvedB p then .res (some p)
    else
      match chooseMin p with
      | none => .err
      | some pr => r (.fvr p pr.2 (p pr.2))
  | .fvr p s ds =>
    match ds with
    | [] => .res none
    | d :: ds2 =>
      match r (.sea (assign p s d)) with
      | .out => .out
      | .err => .err
      | .res (some q) => .res (some q)
      | .res none => r (.fvr p s ds2)

/-- The fuel-indexed interpreter of the search recursion. -/
def runS : ℕ → SCall → SRes
  | 0, _ => .out
  | f+1, c => stepS (runS f) c

lemma runS_succ (f : ℕ) (c : SCall) : runS (f+1) c = stepS (runS f) c := rfl

lemma stepS_congr (r1 r2 : SCall → SRes)
    (hr : ∀ c, r1 c ≠ .out → r2 c = r1 c) :
    ∀ c, stepS r1 c ≠ .out → stepS r2 c = stepS r1 c := by
  intro c h
  cases c with
  | sea r =>
    cases r with
    | none => rfl
    | some p =>
      by_cases hs : is_solvedB p
      · simp only [stepS, if_pos hs]
      · rcases hc : chooseMin p with _ | pr
        · simp only [stepS, if_neg hs, hc]
        · have h1 : r1 (.fvr p pr.2 (p pr.2)) ≠ .out := by
            intro hout; exact h (by simp only [stepS, if_neg hs, hc, hout])
          simp only [stepS, if_neg hs, hc, hr _ h1]
  | fvr p s ds =>
    cases ds with
    | nil => rfl
    | cons d ds2 =>
      rcases h1 : r1 (.sea (assign p s d)) with _ | _ | (_ | q)
      · exact absurd (by simp only [stepS, h1]) h
      · have hne : r1 (.sea (assign p s d)) ≠ .out := by
          intro hc; rw [h1] at hc; exact SRes.noConfusion hc
        simp only [stepS, hr _ hne, h1]
      · have hne : r1 (.sea (assign p s d)) ≠ .out := by
          intro hc; rw [h1] at hc; exact SRes.noConfusion hc
        have h3 : r1 (.fvr p s ds2) ≠ .out := by
          intro hout; exact h (by simp only [stepS, h1, hout])
        simp only [stepS, hr _ hne, h1, hr _ h3]
      · have hne : r1 (.sea (assign p s d)) ≠ .out := by
          intro hc; rw [h1] at hc; exact SRes.noConfusion hc
        simp only [stepS, hr _ hne, h1]

/-- More fuel does not change a search that did not run out. -/
theorem runS_le : ∀ (g f : ℕ), f ≤ g → ∀ (c : SCall), runS f c ≠ .out →
    runS g c = runS f c := by
  intro g
  induction g with
  | zero =>
    intro f h0 c h
    have : f = 0 := by omega
    subst this; rfl
  | succ g ih =>
    intro f hle c h
    cases f with
    | zero => exact absurd rfl h
    | succ f =>
      exact stepS_congr (runS f) (runS g) (fun c2 hc => ih f (by omega) c2 hc) c h

theorem runS_eq_runS {f g : ℕ} (c : SCall) (hf : runS f c ≠ .out)
    (hg : runS g c ≠ .out) : runS f c = runS g c := by
  rcases Nat.le_total f g with h | h
  · exact (runS_le g f h c hf).symm
  · exact runS_le f g h c hg

lemma foldl_min_shape (p : Store) : ∀ (l : List Cell) (b : ℕ × Cell),
    (l.foldl (fun b s =>
      if pairLt ((p s).length, s) b then ((p s).length, s) else b) b) = b
    ∨ ∃ s ∈ l, (l.foldl (fun b s =>
      if pairLt ((p s).length, s) b then ((p s).length, s) else b) b)
        = ((p s).length, s) := by
  intro l
  induction l with
  | nil => intro b; left; rfl
  | cons a l ih =>
    intro b
    rw [List.foldl_cons]
    rcases ih (if pairLt ((p a).length, a) b then ((p a).length, a) else b) with h | ⟨t, ht, h⟩
    · rw [h]
      by_cases ha : pairLt ((p a).length, a) b
      · right; exact ⟨a, by simp, by rw [if_pos ha]⟩
      · left; rw [if_neg ha]
    · right; exact ⟨t, by simp [ht], h⟩

lemma chooseMin_spec {p : Store} {pr : ℕ × Cell} (h : chooseMin p = some pr) :
    pr.1 = (p pr.2).length ∧ 1 < (p pr.2).length := by
  unfold chooseMin at h
  rcases hfil : squares.filter (fun s => decide (1 < (p s).length)) with _ | ⟨s0, rest⟩ <;>
    rw [hfil] at h
  · exact absurd h (by simp)
  · have hpr : pr = rest.foldl (fun b s =>
        if pairLt ((p s).length, s) b then ((p s).length, s) else b)
        ((p s0).length, s0) := by
      cases h; rfl
    have hmem : ∀ t : Cell, t ∈ squares.filter (fun s => decide (1 < (p s).length)) →
        1 < (p t).length := by
      intro t ht
      have := (List.mem_filter.mp ht).2
      simpa using this
    rcases foldl_min_shape p rest ((p s0).length, s0) with hsh | ⟨t, ht, hsh⟩
    · rw [← hpr] at hsh
      rw [hsh]
      exact ⟨rfl, hmem s0 (by rw [hfil]; exact List.mem_cons_self s0 rest)⟩
    · rw [← hpr] at hsh
      rw [hsh]
      exact ⟨rfl, hmem t (by rw [hfil]; exact List.mem_cons_of_mem s0 ht)⟩

/-- Depth measure for search calls. -/
def Gm : SCall → ℕ
  | .sea none => 1
  | .sea (some p) => (total p + 2)^2 + total p + 3
  | .fvr p _ ds => (total p + 2)^2 + ds.length + 1

/-- Wellformedness needed for search termination: candidate strings
contain no duplicate digits, and a branching square has at least two
candidates. -/
def SOK : SCall → Prop
  | .sea none => True
  | .sea (some p) => ∀ x, (p x).Nodup
  | .fvr p s _ => (∀ x, (p x).Nodup) ∧ 2 ≤ (p s).length

lemma nodup_of_assign {p q : Store} {s : Cell} {d : ℕ}
    (h : assign p s d = some q) (hn : ∀ x, (p x).Nodup) : ∀ x, (q x).Nodup :=
  fun x => (assign_sublist h x).nodup (hn x)

/-- Fuel sufficiency for the search recursion on wellformed calls. -/
theorem runS_no_out : ∀ (f : ℕ) (c : SCall), SOK c → Gm c < f → runS f c ≠ .out := by
  intro f
  induction f with
  | zero => intro c hok h; exact absurd h (Nat.not_lt_zero _)
  | succ f ih =>
    intro c hok hGm
    have hGm2 : Gm c ≤ f := Nat.lt_succ_iff.mp hGm
    show stepS (runS f) c ≠ .out
    cases c with
    | sea r =>
      cases r with
      | none => exact fun hc => SRes.noConfusion hc
      | some p =>
        by_cases hs : is_solvedB p
        · simp only [stepS, if_pos hs]
          exact fun hc => SRes.noConfusion hc
        · rcases hc : chooseMin p with _ | pr
          · simp only [stepS, if_neg hs, hc]
            exact fun hc2 => SRes.noConfusion hc2
          · have hspec := chooseMin_spec hc
            have hGmc : Gm (.sea (some p)) = (total p + 2)^2 + total p + 3 := rfl
            rw [hGmc] at hGm2
            have hlenle : (p pr.2).length ≤ total p := length_le_total p pr.2
            have hsub : Gm (.fvr p pr.2 (p pr.2)) < f := by
              have heq : Gm (.fvr p pr.2 (p pr.2))
                  = (total p + 2)^2 + (p pr.2).length + 1 := rfl
              rw [heq]; linarith
            have hsok : SOK (.fvr p pr.2 (p pr.2)) := ⟨hok, hspec.2⟩
            simp only [stepS, if_neg hs, hc]
            exact ih _ hsok hsub
    | fvr p s ds =>
      obtain ⟨hn, hlen⟩ := hok
      cases ds with
      | nil => exact fun hc => SRes.noConfusion hc
      | cons d ds2 =>
        have hGmc : Gm (.fvr p s (d :: ds2))
            = (total p + 2)^2 + (ds2.length + 1) + 1 := by
          simp only [Gm, List.length_cons]
        rw [hGmc] at hGm2
        have hsq4 : 4 ≤ (total p + 2)^2 := by
          have : 2^2 ≤ (total p + 2)^2 := sq_le_sq (by linarith)
          linarith [this]
        have hsub : Gm (.sea (assign p s d)) < f := by
          rcases ha : assign p s d with _ | q
          · have : Gm (.sea none) = 1 := rfl
            rw [this]; linarith
          · have hTq : total q < total p := assign_total_lt hlen (hn s) ha
            have heq : Gm (.sea (some q)) = (total q + 2)^2 + total q + 3 := rfl
            rw [heq]
            have hsq : (total q + 2)^2 ≤ (total p + 1)^2 := sq_le_sq (by linarith)
            have hexp : (total p + 2)^2 = (total p + 1)^2 + 2 * total p + 3 := by ring
            linarith
        have hsok : SOK (.sea (assign p s d)) := by
          rcases ha : assign p s d with _ | q
          · trivial
          · exact nodup_of_assign ha hn
        rcases h1 : runS f (.sea (assign p s d)) with _ | _ | (_ | q)
        · exact absurd h1 (ih _ hsok hsub)
        · simp only [stepS, h1]
          exact fun hc => SRes.noConfusion hc
        · have hsub2 : Gm (.fvr p s ds2) < f := by
            have heq : Gm (.fvr p s ds2) = (total p + 2)^2 + ds2.length + 1 := rfl
            rw [heq]; linarith
          simp only [stepS, h1]
          exact ih _ ⟨hn, hlen⟩ hsub2
        · simp only [stepS, h1]
          exact fun hc => SRes.noConfusion hc

/-- Fuel that suffices for `search` on a wellformed input. -/
def searchFuel (r : Option Store) : ℕ :=
  match r with
  | none => 2
  | some p => (total p + 2)^2 + total p + 4

/-- Official `search(puzzle)`. -/
def search (r : Option Store) : SRes := runS (searchFuel r) (.sea r)

/-- Official `first_valid_result(puzzle, square, values)`, written with
the official total `search`. -/
def first_valid_result : Store → Cell → List ℕ → SRes
  | _, _, [] => .res none
  | p, s, d :: ds =>
    match search (assign p s d) with
    | .out => .out
    | .err => .err
    | .res (some q) => .res (some q)
    | .res none => first_valid_result p s ds

lemma searchFuel_gt (r : Option Store) : Gm (.sea r) < searchFuel r := by
  cases r with
  | none => exact Nat.lt_succ_self 1
  | some p => exact Nat.lt_succ_self _

lemma search_run {r : Option Store} {v : SRes}
    (h : search r = v) : runS (searchFuel r) (.sea r) = v := h

/-- At any sufficient fuel, a `sea` call computes official `search`. -/
lemma runS_sea_eq {f : ℕ} (r : Option Store) (hok : SOK (.sea r))
    (hf : Gm (.sea r) < f) : runS f (.sea r) = search r :=
  runS_eq_runS _ (runS_no_out _ _ hok hf) (runS_no_out _ _ hok (searchFuel_gt r))

/-- At any sufficient fuel, a `fvr` call computes `first_valid_result`. -/
lemma runS_fvr_eq {ds : List ℕ} : ∀ {f : ℕ} (p : Store) (s : Cell),
    (∀ x, (p x).Nodup) → 2 ≤ (p s).length → Gm (.fvr p s ds) < f →
    runS f (.fvr p s ds) = first_valid_result p s ds := by
  induction ds with
  | nil =>
    intro f p s hn hlen hf
    cases f with
    | zero => exact absurd hf (Nat.not_lt_zero _)
    | succ f => simp only [runS_succ, stepS, first_valid_result]
  | cons d ds2 ih =>
    intro f p s hn hlen hf
    cases f with
    | zero => exact absurd hf (Nat.not_lt_zero _)
    | succ f =>
      have hGm2 : Gm (.fvr p s (d :: ds2)) ≤ f := Nat.lt_succ_iff.mp hf
      have hGmc : Gm (.fvr p s (d :: ds2))
          = (total p + 2)^2 + (ds2.length + 1) + 1 := by
        simp only [Gm, List.length_cons]
      rw [hGmc] at hGm2
      have hsq4 : 4 ≤ (total p + 2)^2 := by
        have h0 : 2^2 ≤ (total p + 2)^2 := sq_le_sq (by linarith)
        linarith [h0]
      have hsub : Gm (.sea (assign p s d)) < f := by
        rcases ha : assign p s d with _ | q
        · have h0 : Gm (.sea none) = 1 := rfl
          rw [h0]; linarith
        · have hTq : total q < total p := assign_total_lt hlen (hn s) ha
          have heq : Gm (.sea (some q)) = (total q + 2)^2 + total q + 3 := rfl
          rw [heq]
          have hsq : (total q + 2)^2 ≤ (total p + 1)^2 := sq_le_sq (by linarith)
          have hexp : (total p + 2)^2 = (total p + 1)^2 + 2 * total p + 3 := by ring
          linarith
      have hsok : SOK (.sea (assign p s d)) := by
        rcases ha : assign p s d with _ | q
        · trivial
        · exact nodup_of_assign ha hn
      rw [runS_succ]
      show (match runS f (.sea (assign p s d)) with
        | SRes.out => SRes.out
        | SRes.err => SRes.err
        | SRes.res (some q) => SRes.res (some q)
        | SRes.res none => runS f (.fvr p s ds2))
        = first_valid_result p s (d :: ds2)
      rw [runS_sea_eq _ hsok hsub]
      rcases hv : search (assign p s d) with _ | _ | (_ | q)
      · exact absurd (search_run hv)
          (runS_no_out _ _ hsok (searchFuel_gt (assign p s d)))
      · simp only [first_valid_result, hv]
      · have hsub2 : Gm (.fvr p s ds2) < f := by
          have heq : Gm (.fvr p s ds2) = (total p + 2)^2 + ds2.length + 1 := rfl
          rw [heq]; linarith
        simp only [first_valid_result, hv]
        exact ih p s hn hlen hsub2
      · simp only [first_valid_result, hv]

/-- The `Failed` input case of `search`: returned unchanged. -/
theorem search_failed : search none = .res none := rfl

/-- The solved input case of `search`: returned as-is. -/
theorem search_solved (p : Store) (h : is_solvedB p = true) :
    search (some p) = .res (some p) := by
  unfold search searchFuel
  rw [runS_succ]
  simp only [stepS, if_pos h]

/-- The open input case of `search`: delegate to `first_valid_result`
on the chosen square and its candidate list. -/
theorem search_open (p : Store) (hn : ∀ x, (p x).Nodup)
    (hs : is_solvedB p = false) {pr : ℕ × Cell} (hc : chooseMin p = some pr) :
    search (some p) = first_valid_result p pr.2 (p pr.2) := by
  have hspec := chooseMin_spec hc
  unfold search searchFuel
  rw [runS_succ]
  simp only [stepS, hs, if_neg, Bool.false_eq_true, hc]
  have hlenle : (p pr.2).length ≤ total p := length_le_total p pr.2
  exact runS_fvr_eq p pr.2 hn hspec.2 (by
    have heq : Gm (.fvr p pr.2 (p pr.2)) = (total p + 2)^2 + (p pr.2).length + 1 := rfl
    rw [heq]; linarith)

/-- Soundness of the fuel-indexed search: any returned live store is
solved. -/
lemma runS_sound : ∀ (f : ℕ) (c : SCall) (q : Store),
    runS f c = .res (some q) → is_solvedB q = true := by
  intro f
  induction f with
  | zero => intro c q h; exact absurd h (by simp [runS])
  | succ f ih =>
    intro c q h
    rw [runS_succ] at h
    cases c with
    | sea r =>
      cases r with
      | none => exact absurd h (by simp [stepS])
      | some p =>
        by_cases hs : is_solvedB p
        · simp only [stepS, if_pos hs] at h
          cases h; exact hs
        · simp only [stepS, if_neg hs] at h
          rcases hc : chooseMin p with _ | pr <;> rw [hc] at h
          · exact absurd h (by simp)
          · exact ih _ _ h
    | fvr p s ds =>
      cases ds with
      | nil => exact absurd h (by simp [stepS])
      | cons d ds2 =>
        simp only [stepS] at h
        rcases h1 : runS f (.sea (assign p s d)) with _ | _ | (_ | q2) <;> rw [h1] at h
        · exact absurd h (by simp)
        · exact absurd h (by simp)
        · exact ih _ _ h
        · cases h; exact ih _ _ h1

/-- Initial store: every square can be any digit. -/
def initStore : Store := fun _ => digits

/-- The digit characters of the source string `digits`. -/
def digitChars : List Char := ['1','2','3','4','5','6','7','8','9']

/-- Numeric value of a digit character. -/
def charDigit (c : Char) : ℕ := c.toNat - 48

/-- Official `grid_values`/`grid_puzzle`: keep the relevant characters
and require exactly 81 of them; `none` models the assertion failure on
malformed input. -/
def grid_values (g : List Char) : Option (List Char) :=
  let cs := g.filter (fun c => decide (c ∈ digitChars) || decide (c = '0') || decide (c = '.'))
  if cs.length = 81 then some cs else none

/-- The assignment loop of `parse_grid` over the square/character pairs;
characters `0` and `.` leave the square unconstrained. -/
def parseAssigns : List (Cell × Char) → Store → Option Store
  | [], p => some p
  | (s, c) :: rest, p =>
    if c ∈ digitChars then
      match assign p s (charDigit c) with
      | none => none
      | some p2 => parseAssigns rest p2
    else parseAssigns rest p

/-- Official `parse_grid(grid)`: outer `none` is the assertion failure
of `grid_values`, inner `none` a contradiction among the givens. -/
def parse_grid (g : List Char) : Option (Option Store) :=
  (grid_values g).map (fun cs => parseAssigns (squares.zip cs) initStore)

/-- Official `value_or_dot`. -/
def value_or_dot (v : List ℕ) : Char :=
  match v with
  | [d] => Char.ofNat (d + 48)
  | _ => '.'

/-- Official `to_string(puzzle)`: 81 characters in square order. -/
def to_string (p : Store) : List Char := squares.map (fun s => value_or_dot (p s))

/-- A single propagation call, for stating properties of arbitrary
sequences of `assign`/`eliminate` calls. -/
inductive Op : Type where
  | elimOp (s : Cell) (d : ℕ)
  | assignOp (s : Cell) (d : ℕ)

/-- Apply one propagation call. -/
def applyOp (p : Store) : Op → Option Store
  | .elimOp s d => eliminate p s d
  | .assignOp s d => assign p s d

/-- Apply a sequence of propagation calls, stopping at the first
failure. -/
def applyOps : List Op → Store → Option Store
  | [], p => some p
  | o :: os, p =>
    match applyOp p o with
    | none => none
    | some q => applyOps os q

lemma applyOps_sublist : ∀ {ops : List Op} {p p' : Store},
    applyOps ops p = some p' → ∀ x, List.Sublist (p' x) (p x) := by
  intro ops
  induction ops with
  | nil => intro p p' h x; cases h; exact List.Sublist.refl _
  | cons o os ih =>
    intro p p' h x
    unfold applyOps at h
    rcases ho : applyOp p o with _ | q <;> rw [ho] at h
    · exact absurd h (by simp)
    · refine (ih h x).trans ?_
      cases o with
      | elimOp s d => exact eliminate_sublist ho x
      | assignOp s d => exact assign_sublist ho x

/-- Lexicographic order on `(possibilities, square)` pairs as a
proposition. -/
def pairLe (a b : ℕ × Cell) : Prop :=
  a.1 < b.1 ∨ (a.1 = b.1 ∧ a.2 ≤ b.2)

lemma pairLe_of_lt {a b : ℕ × Cell} (h : pairLt a b = true) : pairLe a b := by
  unfold pairLt at h
  unfold pairLe
  rcases Bool.or_eq_true_iff.mp h with h1 | h2
  · exact Or.inl (of_decide_eq_true h1)
  · rcases Bool.and_eq_true_iff.mp h2 with ⟨h3, h4⟩
    exact Or.inr ⟨of_decide_eq_true h3, le_of_lt (of_decide_eq_true h4)⟩

lemma pairLe_of_not_lt {a b : ℕ × Cell} (h : pairLt a b = false) : pairLe b a := by
  unfold pairLt at h
  unfold pairLe
  rcases Bool.or_eq_false_iff.mp h with ⟨h1, h2⟩
  have hn1 : ¬ a.1 < b.1 := of_decide_eq_false h1
  rcases Bool.and_eq_false_iff.mp h2 with h3 | h4
  · have : a.1 ≠ b.1 := by
      intro hc; rw [hc] at h3; simp at h3
    left; omega
  · have hn2 : ¬ a.2 < b.2 := by
      intro hc
      rw [decide_eq_true hc] at h4
      exact Bool.noConfusion h4
    rcases Nat.lt_or_ge b.1 a.1 with h5 | h5
    · left; exact h5
    · have h6 : a.1 = b.1 := by omega
      right
      exact ⟨h6.symm, le_of_not_lt hn2⟩

lemma pairLe_trans {a b c : ℕ × Cell} (h1 : pairLe a b) (h2 : pairLe b c) :
    pairLe a c := by
  unfold pairLe at h1 h2 ⊢
  rcases h1 with h1 | ⟨h1, h1b⟩ <;> rcases h2 with h2 | ⟨h2, h2b⟩
  · left; omega
  · left; omega
  · left; omega
  · right; exact ⟨h1.trans h2, h1b.trans h2b⟩

lemma foldl_min_le (p : Store) : ∀ (l : List Cell) (b : ℕ × Cell),
    pairLe (l.foldl (fun b s =>
      if pairLt ((p s).length, s) b then ((p s).length, s) else b) b) b
    ∧ ∀ t ∈ l, pairLe (l.foldl (fun b s =>
      if pairLt ((p s).length, s) b then ((p s).length, s) else b) b)
        ((p t).length, t) := by
  intro l
  induction l with
  | nil =>
    intro b
    refine ⟨Or.inr ⟨rfl, le_refl _⟩, ?_⟩
    intro t ht; cases ht
  | cons a l ih =>
    intro b
    rw [List.foldl_cons]
    by_cases ha : pairLt ((p a).length, a) b = true
    · rw [if_pos ha]
      obtain ⟨ihb, ihl⟩ := ih ((p a).length, a)
      refine ⟨pairLe_trans ihb (pairLe_of_lt ha), ?_⟩
      intro t ht
      rcases List.mem_cons.mp ht with h | h
      · subst h; exact ihb
      · exact ihl t h
    · have ha2 : pairLt ((p a).length, a) b = false := by
        simpa using ha
      rw [if_neg (by rw [ha2]; exact Bool.false_ne_true)]
      obtain ⟨ihb, ihl⟩ := ih b
      refine ⟨ihb, ?_⟩
      intro t ht
      rcases List.mem_cons.mp ht with h | h
      · subst h; exact pairLe_trans ihb (pairLe_of_not_lt ha2)
      · exact ihl t h

lemma mem_squares : ∀ t : Cell, t ∈ squares := by decide

/-- Minimality of the chosen square: its `(possibilities, square)` pair
is lexicographically least among squares with more than one candidate. -/
lemma chooseMin_min {p : Store} {pr : ℕ × Cell} (h : chooseMin p = some pr) :
    ∀ t : Cell, 1 < (p t).length → pairLe pr ((p t).length, t) := by
  intro t hlen
  unfold chooseMin at h
  rcases hfil : squares.filter (fun s => decide (1 < (p s).length)) with _ | ⟨s0, rest⟩ <;>
    rw [hfil] at h
  · exact absurd h (by simp)
  · have hpr : pr = rest.foldl (fun b s =>
        if pairLt ((p s).length, s) b then ((p s).length, s) else b)
        ((p s0).length, s0) := by
      cases h; rfl
    have htm : t ∈ squares.filter (fun s => decide (1 < (p s).length)) :=
      List.mem_filter.mpr ⟨mem_squares t, by simpa using hlen⟩
    rw [hfil] at htm
    obtain ⟨hb, hl⟩ := foldl_min_le p rest ((p s0).length, s0)
    rcases List.mem_cons.mp htm with hts | htr
    · subst hts
      rw [hpr]
      exact hb
    · rw [hpr]
      exact hl t htr

/-- The empty store, a convenient concrete input. -/
def emptyStore : Store := fun _ => []

/-- A fully solved grid (the solution of the classic Norvig example),
by rows. -/
def solGrid : List ℕ :=
  [4,8,3,9,2,1,6,5,7,
   9,6,7,3,4,5,8,2,1,
   2,5,1,8,7,6,4,9,3,
   5,4,8,1,3,2,9,7,6,
   7,2,9,5,6,4,1,3,8,
   1,3,6,7,9,8,2,4,5,
   3,7,2,6,8,9,5,1,4,
   8,1,4,2,5,3,7,6,9,
   6,9,5,4,1,7,3,8,2]

/-- The solved grid as a store of singleton candidate strings. -/
def psol : Store := fun x => [solGrid.getD x.val 0]

/-- C1: soundness of `search` — whenever `search` returns a non-Failed
puzzle state, `is_solved` is true on that state: every one of the 27
units reads as exactly the digit set 1..9 from the squares' remaining
candidate strings. -/
theorem C1_search_soundness (r : Option Store) (q : Store)
    (h : search r = .res (some q)) : is_solved (some q) = true :=
  runS_sound _ _ _ h

/-- Witness for C1 at a concrete solved store. -/
theorem C1_witness : is_solved (some psol) = true :=
  C1_search_soundness (some psol) psol (by rfl)

/-- C2: search strategy — on a non-Failed, non-solved store the chosen
square has more than one candidate and is minimal in the
`(number of candidates, square)` lexicographic order (ties broken by
square order), the tried candidate list is the square's candidate
string, in ascending order when the store's strings are ascending, and
`search` delegates to `first_valid_result`, which tries the digits in
order, returns the first non-Failed recursive `search` result of
`assign` on a copy, and returns Failed when the digits are exhausted. -/
theorem C2_search_strategy (p : Store) (hn : ∀ x, (p x).Nodup)
    (hsort : ∀ x, List.Sorted (· < ·) (p x))
    (hs : is_solved (some p) = false) (pr : ℕ × Cell) (hc : chooseMin p = some pr) :
    (pr.1 = (p pr.2).length ∧ 1 < (p pr.2).length)
    ∧ (∀ t : Cell, 1 < (p t).length → pairLe pr ((p t).length, t))
    ∧ List.Sorted (· < ·) (p pr.2)
    ∧ search (some p) = first_valid_result p pr.2 (p pr.2)
    ∧ first_valid_result p pr.2 [] = .res none
    ∧ (∀ (d : ℕ) (ds : List ℕ), first_valid_result p pr.2 (d :: ds)
        = match search (assign p pr.2 d) with
          | .out => .out
          | .err => .err
          | .res (some q) => .res (some q)
          | .res none => first_valid_result p pr.2 ds) :=
  ⟨chooseMin_spec hc, chooseMin_min hc, hsort pr.2,
   search_open p hn hs hc, rfl, fun _ _ => rfl⟩

set_option maxRecDepth 8000 in
/-- Witness for C2 at the initial store. -/
theorem C2_witness :
    search (some initStore)
      = first_valid_result initStore
          ((9, (⟨0, by omega⟩ : Cell)) : ℕ × Cell).2
          (initStore ((9, (⟨0, by omega⟩ : Cell)) : ℕ × Cell).2) :=
  (C2_search_strategy initStore (by decide) (by decide) (by decide)
    (9, ⟨0, by omega⟩) (by rfl)).2.2.2.1

/-- C3: termination of the mutual `assign`/`eliminate` recursion — at
the official fuel (and any larger one) the fuel-indexed interpreter
never runs out, and computes the official total functions. -/
theorem C3_termination (p : Store) (s : Cell) (d : ℕ) (f : ℕ)
    (hf : elimFuel p ≤ f) :
    run f (.elim p s d) ≠ .out
    ∧ run f (.elim p s d) = .res (eliminate p s d)
    ∧ run f (.assignSeq p s ((p s).filter (fun e => decide (e ≠ d))))
        = .res (assign p s d) := by
  have hA : Fm (.elim p s d) = 50 * (total p + 2)^2 := rfl
  have hB : elimFuel p = 50 * (total p + 2)^2 + total p + 1000 := rfl
  have h1 : Fm (.elim p s d) < f := by rw [hA]; rw [hB] at hf; linarith
  have hlen : ((p s).filter (fun e => decide (e ≠ d))).length ≤ total p :=
    le_trans (List.length_filter_le _ _) (length_le_total p s)
  have h2 : Fm (.assignSeq p s ((p s).filter (fun e => decide (e ≠ d)))) < f := by
    have hC : Fm (.assignSeq p s ((p s).filter (fun e => decide (e ≠ d))))
        = 50 * (total p + 2)^2
          + ((p s).filter (fun e => decide (e ≠ d))).length + 1 := rfl
    rw [hC]; rw [hB] at hf; linarith
  exact ⟨run_no_out f _ h1, run_elim_eq p s d h1, run_assignSeq_eq p s h2⟩

/-- Witness for C3 at the empty store. -/
theorem C3_witness :
    run (elimFuel emptyStore) (.elim emptyStore ⟨0, by omega⟩ 5) ≠ .out
    ∧ run (elimFuel emptyStore) (.elim emptyStore ⟨0, by omega⟩ 5)
        = .res (eliminate emptyStore ⟨0, by omega⟩ 5)
    ∧ run (elimFuel emptyStore)
        (.assignSeq emptyStore ⟨0, by omega⟩
          ((emptyStore ⟨0, by omega⟩).filter (fun e => decide (e ≠ 5))))
        = .res (assign emptyStore ⟨0, by omega⟩ 5) :=
  C3_termination emptyStore ⟨0, by omega⟩ 5 (elimFuel emptyStore) (le_refl _)

/-- C4: naked-single propagation — when removing the digit leaves the
square with exactly one candidate, `eliminate` folds an elimination of
that candidate over the 20 peers and propagates a failure of that fold
as Failed. -/
theorem C4_naked_single (p : Store) (s : Cell) (d d2 : ℕ) (hd : d ∈ p s)
    (hone : removeD p s d s = [d2]) :
    (peers s).length = 20
    ∧ eliminate p s d
        = (elimList (removeD p s d) (peers s) d2).bind
            (fun q => assign_unique_place q s d)
    ∧ (elimList (removeD p s d) (peers s) d2 = none → eliminate p s d = none) := by
  have hmain : eliminate p s d
      = (elimList (removeD p s d) (peers s) d2).bind
          (fun q => assign_unique_place q s d) := by
    rw [eliminate_eq p s d hd]
    rcases hel : elimList (removeD p s d) (peers s) d2 with _ | q <;>
      simp [hone, hel, assign_unique_place]
  exact ⟨peers_length s, hmain, fun h => by rw [hmain, h]; rfl⟩

/-- Witness for C4 on a two-candidate store. -/
theorem C4_witness :
    (peers (⟨0, by omega⟩ : Cell)).length = 20
    ∧ eliminate (fun _ => [1, 2]) ⟨0, by omega⟩ 1
        = (elimList (removeD (fun _ => [1, 2]) ⟨0, by omega⟩ 1)
            (peers ⟨0, by omega⟩) 2).bind
            (fun q => assign_unique_place q ⟨0, by omega⟩ 1)
    ∧ (elimList (removeD (fun _ => [1, 2]) ⟨0, by omega⟩ 1)
        (peers ⟨0, by omega⟩) 2 = none →
        eliminate (fun _ => [1, 2]) ⟨0, by omega⟩ 1 = none) :=
  C4_naked_single (fun _ => [1, 2]) ⟨0, by omega⟩ 1 2 (by decide) (by decide)

/-- C5: hidden-single propagation — after the removal, `eliminate`
walks the 3 units of the square; a unit whose remaining places for the
digit form exactly one square triggers `assign` of the digit there,
and a failure of that `assign` (or an empty place list) fails the
call. -/
theorem C5_hidden_single (p : Store) (s : Cell) (d : ℕ) (hd : d ∈ p s)
    (hne : removeD p s d s ≠ []) :
    (units s).length = 3
    ∧ (∀ q : Store, peer_eliminate (removeD p s d) s = some q →
        eliminate p s d = unitList q s d (units s))
    ∧ (∀ (q : Store) (u : List Cell) (us : List (List Cell)),
        u.filter (fun y => decide (d ∈ q y)) = [] →
        unitList q s d (u :: us) = none)
    ∧ (∀ (q : Store) (u : List Cell) (us : List (List Cell)) (y : Cell),
        u.filter (fun y => decide (d ∈ q y)) = [y] →
        unitList q s d (u :: us)
          = (assign q y d).bind (fun q2 => unitList q2 s d us)) := by
  refine ⟨units_length s, ?_, ?_, ?_⟩
  · intro q hq
    rw [eliminate_eq_stages p s d hd, if_neg hne, hq]
    rfl
  · intro q u us hu
    simp [unitList, hu]
  · intro q u us y hu
    rcases ha : assign q y d with _ | q2 <;> simp [unitList, hu, ha]

/-- Witness for C5 on a two-candidate store. -/
theorem C5_witness :
    (units (⟨0, by omega⟩ : Cell)).length = 3
    ∧ (∀ q : Store, peer_eliminate (removeD (fun _ => [1, 2]) ⟨0, by omega⟩ 1)
          ⟨0, by omega⟩ = some q →
        eliminate (fun _ => [1, 2]) ⟨0, by omega⟩ 1
          = unitList q ⟨0, by omega⟩ 1 (units ⟨0, by omega⟩))
    ∧ (∀ (q : Store) (u : List Cell) (us : List (List Cell)),
        u.filter (fun y => decide ((1:ℕ) ∈ q y)) = [] →
        unitList q ⟨0, by omega⟩ 1 (u :: us) = none)
    ∧ (∀ (q : Store) (u : List Cell) (us : List (List Cell)) (y : Cell),
        u.filter (fun y => decide ((1:ℕ) ∈ q y)) = [y] →
        unitList q ⟨0, by omega⟩ 1 (u :: us)
          = (assign q y 1).bind (fun q2 => unitList q2 ⟨0, by omega⟩ 1 us)) :=
  C5_hidden_single (fun _ => [1, 2]) ⟨0, by omega⟩ 1 (by decide) (by decide)

/-- C6: contradiction detection — with the digit present, `eliminate`
fails exactly when the removal empties the square, the peer-elimination
stage fails, or the unique-place stage fails (a unit with no place for
the digit, or a failing hidden-single assignment); otherwise it returns
the propagated store. -/
theorem C6_contradiction (p : Store) (s : Cell) (d : ℕ) (hd : d ∈ p s) :
    (eliminate p s d = none ↔
      (removeD p s d s = []
       ∨ peer_eliminate (removeD p s d) s = none
       ∨ (∃ q, peer_eliminate (removeD p s d) s = some q
            ∧ assign_unique_place q s d = none)))
    ∧ (∀ q2 : Store, eliminate p s d = some q2 ↔
        (removeD p s d s ≠ []
         ∧ ∃ q, peer_eliminate (removeD p s d) s = some q
             ∧ assign_unique_place q s d = some q2)) := by
  have heq := eliminate_eq_stages p s d hd
  by_cases hrm : removeD p s d s = []
  · rw [heq, if_pos hrm]
    constructor
    · simp [hrm]
    · intro q2
      simp [hrm]
  · rw [heq, if_neg hrm]
    rcases hpe : peer_eliminate (removeD p s d) s with _ | q
    · constructor
      · simp [hpe]
      · intro q2; simp [hpe, hrm]
    · constructor
      · simp [hpe, hrm]
      · intro q2; simp [hpe, hrm]

/-- Witness for C6 on a two-candidate store. -/
theorem C6_witness :
    (eliminate (fun _ => [1, 2]) (⟨0, by omega⟩ : Cell) 1 = none ↔
      (removeD (fun _ => [1, 2]) ⟨0, by omega⟩ 1 ⟨0, by omega⟩ = []
       ∨ peer_eliminate (removeD (fun _ => [1, 2]) ⟨0, by omega⟩ 1) ⟨0, by omega⟩ = none
       ∨ (∃ q, peer_eliminate (removeD (fun _ => [1, 2]) ⟨0, by omega⟩ 1)
            ⟨0, by omega⟩ = some q
            ∧ assign_unique_place q ⟨0, by omega⟩ 1 = none)))
    ∧ (∀ q2 : Store, eliminate (fun _ => [1, 2]) ⟨0, by omega⟩ 1 = some q2 ↔
        (removeD (fun _ => [1, 2]) ⟨0, by omega⟩ 1 ⟨0, by omega⟩ ≠ []
         ∧ ∃ q, peer_eliminate (removeD (fun _ => [1, 2]) ⟨0, by omega⟩ 1)
             ⟨0, by omega⟩ = some q
             ∧ assign_unique_place q ⟨0, by omega⟩ 1 = some q2)) :=
  C6_contradiction (fun _ => [1, 2]) ⟨0, by omega⟩ 1 (by decide)

/-- C7: monotonicity — across any finite sequence of `assign` and
`eliminate` calls that succeeds, every square's candidate string in the
final store is a sublist (hence a subset) of the one it started with. -/
theorem C7_monotone (ops : List Op) (p p' : Store) (h : applyOps ops p = some p') :
    ∀ x, List.Sublist (p' x) (p x) ∧ p' x ⊆ p x :=
  fun x => ⟨applyOps_sublist h x, (applyOps_sublist h x).subset⟩

/-- Witness for C7: one eliminate call on the initial store, read at
square 3. -/
theorem C7_witness :
    List.Sublist (removeD initStore ⟨0, by omega⟩ 1 ⟨3, by omega⟩)
        (initStore ⟨3, by omega⟩)
      ∧ removeD initStore ⟨0, by omega⟩ 1 ⟨3, by omega⟩ ⊆ initStore ⟨3, by omega⟩ :=
  C7_monotone [Op.elimOp ⟨0, by omega⟩ 1] initStore
    (removeD initStore ⟨0, by omega⟩ 1) (by rfl) ⟨3, by omega⟩

/-- C8: idempotence guard — eliminating a digit already absent from the
square's candidates is a no-op success returning the store unchanged. -/
theorem C8_idempotent (p : Store) (s : Cell) (d : ℕ) (hd : d ∉ p s) :
    eliminate p s d = some p :=
  eliminate_of_not_mem p s d hd

/-- Witness for C8: eliminating 15 from a full square. -/
theorem C8_witness : eliminate initStore ⟨0, by omega⟩ 15 = some initStore :=
  C8_idempotent initStore ⟨0, by omega⟩ 15 (by decide)

/-- The `digit_places` computation of `assign_unique_place`: the squares
of a unit that still list a digit as a candidate. -/
def digit_places (p : Store) (u : List Cell) (d : ℕ) : List Cell :=
  u.filter (fun y => decide (d ∈ p y))

/-- Places relation between an input store and an output store, for one
unit and one digit: either the digit's place list in the unit is
untouched, or it is nonempty and, when reduced to a single square, that
square's candidates all equal the digit. -/
def PL (p p' : Store) (u : List Cell) (e : ℕ) : Prop :=
  digit_places p' u e = digit_places p u e
  ∨ (digit_places p' u e ≠ []
     ∧ ∀ y, digit_places p' u e = [y] → ∀ z ∈ p' y, z = e)

/-- Guarantee of the unique-place loop for the units it has processed. -/
def ExtraPlaces : Call → Store → Prop
  | .unitSeq _ _ d us, p' => ∀ u ∈ us, u ∈ unitlist →
      (digit_places p' u d ≠ []
       ∧ ∀ y, digit_places p' u d = [y] → ∀ z ∈ p' y, z = d)
  | _, _ => True

lemma PL_refl (p : Store) (u : List Cell) (e : ℕ) : PL p p u e := Or.inl rfl

lemma PL_comp {p q p' : Store} {u : List Cell} {e : ℕ}
    (h1 : PL p q u e) (h2 : PL q p' u e)
    (hsub : ∀ x, List.Sublist (p' x) (q x)) : PL p p' u e := by
  rcases h2 with h2 | h2
  · rcases h1 with h1 | ⟨h1a, h1b⟩
    · left; rw [h2, h1]
    · right
      rw [h2]
      exact ⟨h1a, fun y hy z hz => h1b y hy z ((hsub y).subset hz)⟩
  · right; exact h2

lemma dp_removeD {p : Store} {s : Cell} {d : ℕ} {u : List Cell} {e : ℕ}
    (h : ¬ (s ∈ u ∧ e = d)) :
    digit_places (removeD p s d) u e = digit_places p u e := by
  unfold digit_places
  apply List.filter_congr
  intro y hy
  by_cases hys : y = s
  · subst hys
    have hed : e ≠ d := fun hc => h ⟨hy, hc⟩
    rw [removeD_self]
    apply decide_eq_decide.mpr
    constructor
    · intro hm; exact (List.mem_filter.mp hm).1
    · intro hm; exact List.mem_filter.mpr ⟨hm, by simpa using hed⟩
  · rw [removeD_of_ne p s d hys]

lemma run_elim_removes {f : ℕ} {p : Store} {s : Cell} {d : ℕ} {p' : Store}
    (h : run f (.elim p s d) = .res (some p')) : d ∉ p' s := by
  cases f with
  | zero => simp [run] at h
  | succ f =>
    rw [run_succ] at h
    simp only [step] at h
    split at h
    · split at h
      · exact absurd h (by simp)
      · rename_i e hrm
        split at h
        · exact absurd h (by simp)
        · exact absurd h (by simp)
        · rename_i p2 hrun
          have h1 : List.Sublist (p' s) (p2 s) := run_sublist _ _ _ h s
          have h2 : List.Sublist (p2 s) (removeD p s d s) := run_sublist _ _ _ hrun s
          have h3 : d ∉ removeD p s d s := by rw [removeD_self]; simp
          exact fun hc => h3 (h2.subset (h1.subset hc))
      · rename_i a b l hrm
        have h1 : List.Sublist (p' s) (removeD p s d s) := run_sublist _ _ _ h s
        have h3 : d ∉ removeD p s d s := by rw [removeD_self]; simp
        exact fun hc => h3 (h1.subset hc)
    · rename_i hd
      cases h
      exact hd

lemma run_assignSeq_removes : ∀ {ds : List ℕ} {f : ℕ} {p : Store} {s : Cell} {p' : Store},
    run f (.assignSeq p s ds) = .res (some p') → ∀ e ∈ ds, e ∉ p' s := by
  intro ds
  induction ds with
  | nil => intro f p s p' h e he; cases he
  | cons d ds2 ih =>
    intro f p s p' h e he
    cases f with
    | zero => simp [run] at h
    | succ f =>
      rw [run_succ] at h
      simp only [step] at h
      split at h
      · exact absurd h (by simp)
      · exact absurd h (by simp)
      · rename_i q hq
        rcases List.mem_cons.mp he with rfl | he2
        · have h1 : e ∉ q s := run_elim_removes hq
          exact fun hc => h1 ((run_sublist _ _ _ h s).subset hc)
        · exact ih h e he2

/-- The places invariant of the whole propagation recursion: a unit's
place list for a digit is either untouched or nonempty, with a
reduced-to-one place forced to the digit; and the unique-place loop
guarantees this (in the strong, second form) for every processed unit
and the eliminated digit. -/
theorem run_places (f : ℕ) : ∀ (c : Call) (p' : Store), run f c = .res (some p') →
    (∀ u ∈ unitlist, ∀ e, PL c.store p' u e) ∧ ExtraPlaces c p' := by
  induction f with
  | zero => intro c p' h; simp [run] at h
  | succ f ih =>
    intro c p' h
    rw [run_succ] at h
    cases c with
    | elim p s d =>
      simp only [step] at h
      split at h
      · split at h
        · exact absurd h (by simp)
        · rename_i e hrm
          split at h
          · exact absurd h (by simp)
          · exact absurd h (by simp)
          · rename_i p2 hrun
            obtain ⟨PL2, EX⟩ := ih _ _ h
            obtain ⟨PL1, _⟩ := ih _ _ hrun
            have PL2x : ∀ u ∈ unitlist, ∀ e2, PL p2 p' u e2 := PL2
            have PL1x : ∀ u ∈ unitlist, ∀ e2, PL (removeD p s d) p2 u e2 := PL1
            refine ⟨?_, trivial⟩
            show ∀ u ∈ unitlist, ∀ e2, PL p p' u e2
            intro u hu e'
            by_cases hc : s ∈ u ∧ e' = d
            · obtain ⟨hsu, he'⟩ := hc
              subst he'
              have hmem : u ∈ units s := List.mem_filter.mpr ⟨hu, by simpa using hsu⟩
              exact Or.inr (EX u hmem hu)
            · have hdp : digit_places (removeD p s d) u e' = digit_places p u e' :=
                dp_removeD hc
              have hcomp : PL (removeD p s d) p' u e' :=
                PL_comp (PL1x u hu e') (PL2x u hu e') (run_sublist _ _ _ h)
              rcases hcomp with h2 | h2
              · left; rw [h2, hdp]
              · right; exact h2
        · rename_i a b l hrm
          obtain ⟨PL1, EX⟩ := ih _ _ h
          have PL1x : ∀ u ∈ unitlist, ∀ e2, PL (removeD p s d) p' u e2 := PL1
          refine ⟨?_, trivial⟩
          show ∀ u ∈ unitlist, ∀ e2, PL p p' u e2
          intro u hu e'
          by_cases hc : s ∈ u ∧ e' = d
          · obtain ⟨hsu, he'⟩ := hc
            subst he'
            have hmem : u ∈ units s := List.mem_filter.mpr ⟨hu, by simpa using hsu⟩
            exact Or.inr (EX u hmem hu)
          · have hdp : digit_places (removeD p s d) u e' = digit_places p u e' :=
              dp_removeD hc
            rcases PL1x u hu e' with h2 | h2
            · left; rw [h2, hdp]
            · right; exact h2
      · cases h
        exact ⟨fun u _ e => PL_refl _ _ _, trivial⟩
    | elimSeq p ts d =>
      simp only [step] at h
      split at h
      · cases h; exact ⟨fun u _ e => PL_refl _ _ _, trivial⟩
      · split at h
        · exact absurd h (by simp)
        · exact absurd h (by simp)
        · rename_i p2 hrun
          have PLa : ∀ u ∈ unitlist, ∀ e2, PL p p2 u e2 := (ih _ _ hrun).1
          have PLb : ∀ u ∈ unitlist, ∀ e2, PL p2 p' u e2 := (ih _ _ h).1
          refine ⟨?_, trivial⟩
          show ∀ u ∈ unitlist, ∀ e2, PL p p' u e2
          intro u hu e
          exact PL_comp (PLa u hu e) (PLb u hu e) (run_sublist _ _ _ h)
    | assignSeq p s ds =>
      simp only [step] at h
      split at h
      · cases h; exact ⟨fun u _ e => PL_refl _ _ _, trivial⟩
      · split at h
        · exact absurd h (by simp)
        · exact absurd h (by simp)
        · rename_i p2 hrun
          have PLa : ∀ u ∈ unitlist, ∀ e2, PL p p2 u e2 := (ih _ _ hrun).1
          have PLb : ∀ u ∈ unitlist, ∀ e2, PL p2 p' u e2 := (ih _ _ h).1
          refine ⟨?_, trivial⟩
          show ∀ u ∈ unitlist, ∀ e2, PL p p' u e2
          intro u hu e
          exact PL_comp (PLa u hu e) (PLb u hu e) (run_sublist _ _ _ h)
    | unitSeq p s d us =>
      simp only [step] at h
      split at h
      · cases h
        refine ⟨fun u _ e => PL_refl _ _ _, ?_⟩
        intro u hu
        cases hu
      · rename_i u0 us2
        split at h
        · exact absurd h (by simp)
        · rename_i y hy0
          have hy : digit_places p u0 d = [y] := hy0
          split at h
          · exact absurd h (by simp)
          · exact absurd h (by simp)
          · rename_i q1 hq1
            obtain ⟨PLu, EXu⟩ := ih _ _ h
            obtain ⟨PLa, _⟩ := ih _ _ hq1
            have PLux : ∀ u ∈ unitlist, ∀ e2, PL q1 p' u e2 := PLu
            have PLax : ∀ u ∈ unitlist, ∀ e2, PL p q1 u e2 := PLa
            constructor
            · show ∀ u ∈ unitlist, ∀ e2, PL p p' u e2
              intro u hu e
              exact PL_comp (PLax u hu e) (PLux u hu e) (run_sublist _ _ _ h)
            · intro u hu hul
              rcases List.mem_cons.mp hu with rfl | hu2
              · have hyu : y ∈ u ∧ d ∈ p y := by
                  have hm : y ∈ digit_places p u d := by
                    rw [hy]; exact List.mem_cons_self y []
                  have h2 := List.mem_filter.mp hm
                  exact ⟨h2.1, by simpa using h2.2⟩
                have hq1y_all : ∀ z ∈ q1 y, z = d := by
                  intro z hz
                  by_contra hzd
                  have hz_in_p : z ∈ p y := (run_sublist _ _ _ hq1 y).subset hz
                  have hz_in_ds : z ∈ (p y).filter (fun e => decide (e ≠ d)) :=
                    List.mem_filter.mpr ⟨hz_in_p, by simpa using hzd⟩
                  exact (run_assignSeq_removes hq1 z hz_in_ds) hz
                have hpy : p y ≠ [] := by
                  intro hc
                  rw [hc] at hyu
                  exact absurd hyu.2 (List.not_mem_nil d)
                have hq1y_ne : q1 y ≠ [] := run_nonempty _ _ _ hq1 y hpy
                have hdq1 : d ∈ q1 y := by
                  cases hql : q1 y with
                  | nil => exact absurd hql hq1y_ne
                  | cons z zs =>
                    have hzd := hq1y_all z (by rw [hql]; exact List.mem_cons_self z zs)
                    rw [hzd]
                    exact List.mem_cons_self d zs
                have hydq1 : y ∈ digit_places q1 u d :=
                  List.mem_filter.mpr ⟨hyu.1, by simpa using hdq1⟩
                rcases PLux u hul d with hunch | hr
                · constructor
                  · rw [hunch]
                    intro hc
                    rw [hc] at hydq1
                    exact absurd hydq1 (List.not_mem_nil y)
                  · intro y' hy' z hz
                    rw [hunch] at hy'
                    have hy'y : y = y' := by
                      rw [hy'] at hydq1
                      simpa using hydq1
                    subst hy'y
                    exact hq1y_all z ((run_sublist _ _ _ h y).subset hz)
                · exact hr
              · exact EXu u hu2 hul
        · rename_i a b l hy0
          have hy : digit_places p u0 d = a :: b :: l := hy0
          obtain ⟨PLu, EXu⟩ := ih _ _ h
          have PLux : ∀ u ∈ unitlist, ∀ e2, PL p p' u e2 := PLu
          refine ⟨PLux, ?_⟩
          intro u hu hul
          rcases List.mem_cons.mp hu with rfl | hu2
          · rcases PLux u hul d with hunch | hr
            · constructor
              · rw [hunch, hy]; simp
              · intro y' hy' z hz
                rw [hunch, hy] at hy'
                simp at hy'
            · exact hr
          · exact EXu u hu2 hul

lemma eliminate_places {p : Store} {s : Cell} {d : ℕ} {p' : Store}
    (h : eliminate p s d = some p') : ∀ u ∈ unitlist, ∀ e, PL p p' u e := by
  have hr := eliminate_run h
  have h2 : ∀ u ∈ unitlist, ∀ e, PL p p' u e := (run_places _ _ _ hr).1
  exact h2

lemma assign_places {p : Store} {s : Cell} {d : ℕ} {p' : Store}
    (h : assign p s d = some p') : ∀ u ∈ unitlist, ∀ e, PL p p' u e := by
  unfold assign at h
  have hb : run (Fm (.assignSeq p s ((p s).filter (fun e => decide (e ≠ d)))) + 1)
      (.assignSeq p s ((p s).filter (fun e => decide (e ≠ d))))
      = .res (assignList p s ((p s).filter (fun e => decide (e ≠ d)))) :=
    assignList_run rfl
  rw [h] at hb
  have h2 : ∀ u ∈ unitlist, ∀ e, PL p p' u e := (run_places _ _ _ hb).1
  exact h2

/-- Every unit has at least one remaining place for every digit. -/
def hasPlaces (p : Store) : Prop :=
  ∀ u ∈ unitlist, ∀ e ∈ digits, digit_places p u e ≠ []

lemma hasPlaces_of_PL {p p' : Store} (hp : hasPlaces p)
    (hPL : ∀ u ∈ unitlist, ∀ e, PL p p' u e) : hasPlaces p' := by
  intro u hu e he
  rcases hPL u hu e with h | h
  · rw [h]; exact hp u hu e he
  · exact h.1

lemma parseAssigns_inv : ∀ (items : List (Cell × Char)) (p0 p : Store),
    parseAssigns items p0 = some p →
    (∀ x, List.Sublist (p x) (p0 x))
    ∧ (hasPlaces p0 → hasPlaces p)
    ∧ (∀ x, p0 x ≠ [] → p x ≠ []) := by
  intro items
  induction items with
  | nil =>
    intro p0 p h
    cases h
    exact ⟨fun x => List.Sublist.refl _, fun hp => hp, fun x hx => hx⟩
  | cons sc rest ih =>
    intro p0 p h
    obtain ⟨s, c⟩ := sc
    unfold parseAssigns at h
    split at h
    · split at h
      · exact absurd h (by simp)
      · rename_i q hq
        obtain ⟨ih1, ih2, ih3⟩ := ih q p h
        refine ⟨?_, ?_, ?_⟩
        · exact fun x => (ih1 x).trans (assign_sublist hq x)
        · exact fun hp => ih2 (hasPlaces_of_PL hp (assign_places hq))
        · exact fun x hx => ih3 x (assign_nonempty hq x hx)
    · exact ih p0 p h

lemma unitlist_nonnil : ∀ u ∈ unitlist, u ≠ [] := by decide

lemma hasPlaces_init : hasPlaces initStore := by
  intro u hu e he
  unfold digit_places
  have hfe : u.filter (fun y => decide (e ∈ initStore y)) = u := by
    apply List.filter_eq_self.mpr
    intro y _
    simpa [initStore] using he
  rw [hfe]
  exact unitlist_nonnil u hu

/-- Stores reachable from a successful `parse_grid` through successful
`assign` and `eliminate` calls. -/
inductive Reach : Store → Prop where
  | root (g : List Char) (p : Store) (h : parse_grid g = some (some p)) : Reach p
  | elimStep (p : Store) (s : Cell) (d : ℕ) (q : Store) (hp : Reach p)
      (h : eliminate p s d = some q) : Reach q
  | assignStep (p : Store) (s : Cell) (d : ℕ) (q : Store) (hp : Reach p)
      (h : assign p s d = some q) : Reach q

lemma parse_grid_inv {g : List Char} {p : Store}
    (h : parse_grid g = some (some p)) :
    (∀ x, List.Sublist (p x) digits) ∧ hasPlaces p ∧ (∀ x, p x ≠ []) := by
  unfold parse_grid at h
  rcases hgv : grid_values g with _ | cs <;> rw [hgv] at h
  · exact absurd h (by simp)
  · have h2 : some (parseAssigns (squares.zip cs) initStore) = some (some p) := h
    have hpa : parseAssigns (squares.zip cs) initStore = some p := Option.some.inj h2
    obtain ⟨h1, h2, h3⟩ := parseAssigns_inv _ _ _ hpa
    exact ⟨fun x => h1 x, h2 hasPlaces_init, fun x => h3 x (by simp [initStore, digits])⟩

/-- Invariants of every reachable store: candidate strings are sublists
of the digit string (so nonrepeating, ascending and among 1..9),
nonempty, and every unit keeps a place for every digit. -/
theorem reach_inv {p : Store} (h : Reach p) :
    (∀ x, List.Sublist (p x) digits) ∧ hasPlaces p ∧ (∀ x, p x ≠ []) := by
  induction h with
  | root g p h => exact parse_grid_inv h
  | elimStep p s d q hp hq ih =>
    exact ⟨fun x => (eliminate_sublist hq x).trans (ih.1 x),
           hasPlaces_of_PL ih.2.1 (eliminate_places hq),
           fun x => eliminate_nonempty hq x (ih.2.2 x)⟩
  | assignStep p s d q hp hq ih =>
    exact ⟨fun x => (assign_sublist hq x).trans (ih.1 x),
           hasPlaces_of_PL ih.2.1 (assign_places hq),
           fun x => assign_nonempty hq x (ih.2.2 x)⟩

lemma mem_digitsSingles {v : List ℕ} :
    v ∈ digitsSingles ↔ ∃ e ∈ digits, v = [e] := by
  unfold digitsSingles
  rw [List.mem_toFinset, List.mem_map]
  constructor
  · rintro ⟨e, he, rfl⟩; exact ⟨e, he, rfl⟩
  · rintro ⟨e, he, rfl⟩; exact ⟨e, he, rfl⟩

lemma solved_of_singletons {p : Store} (hsub : ∀ x, List.Sublist (p x) digits)
    (hp : hasPlaces p) (hone : ∀ x : Cell, (p x).length = 1) :
    is_solvedB p = true := by
  unfold is_solvedB
  rw [List.all_eq_true]
  intro u hu
  unfold unitsolved
  apply decide_eq_true
  apply Finset.ext
  intro v
  rw [List.mem_toFinset, List.mem_map, mem_digitsSingles]
  constructor
  · rintro ⟨y, hy, rfl⟩
    obtain ⟨z, hz⟩ := List.length_eq_one.mp (hone y)
    refine ⟨z, ?_, hz⟩
    have : z ∈ p y := by rw [hz]; exact List.mem_cons_self z []
    exact (hsub y).subset this
  · rintro ⟨e, he, rfl⟩
    have hne := hp u hu e he
    obtain ⟨y, hy⟩ := List.exists_mem_of_ne_nil _ hne
    have hy2 := List.mem_filter.mp hy
    have hey : e ∈ p y := by simpa using hy2.2
    obtain ⟨z, hz⟩ := List.length_eq_one.mp (hone y)
    have hze : z = e := by
      rw [hz] at hey
      exact (List.mem_singleton.mp hey).symm
    exact ⟨y, hy2.1, by rw [hz, hze]⟩

/-- C10: totality of the search's square selection — in every store
reachable from `parse_grid` through successful `assign`/`eliminate`
calls, if all 81 squares are down to a single candidate then the store
is solved; consequently a reachable non-solved store has a square with
more than one candidate, so the minimum `search` takes ranges over a
non-empty collection and the empty-`min` error case is unreachable. -/
theorem C10_selection_total (p : Store) (hr : Reach p) :
    ((∀ s : Cell, (p s).length = 1) → is_solved (some p) = true)
    ∧ (is_solved (some p) = false → ∃ s : Cell, 1 < (p s).length) := by
  obtain ⟨hsub, hp, hne⟩ := reach_inv hr
  constructor
  · intro hone
    exact solved_of_singletons hsub hp hone
  · intro hns
    by_contra hno
    push_neg at hno
    have hone : ∀ s : Cell, (p s).length = 1 := by
      intro s
      have h1 : (p s).length ≤ 1 := hno s
      have h2 : 0 < (p s).length := List.length_pos.mpr (hne s)
      omega
    have hsol : is_solvedB p = true := solved_of_singletons hsub hp hone
    have : is_solved (some p) = true := hsol
    rw [this] at hns
    exact Bool.noConfusion hns

/-- An empty 81-character grid. -/
def dotsGrid : List Char := List.replicate 81 '.'

set_option maxRecDepth 8000 in
/-- Witness for C10 at the store parsed from the empty grid. -/
theorem C10_witness : ∃ s : Cell, 1 < (initStore s).length :=
  (C10_selection_total initStore
    (Reach.root dotsGrid initStore (by rfl))).2 (by decide)

lemma mem_peers_iff {t s : Cell} :
    t ∈ peers s ↔ t ≠ s ∧ ∃ u ∈ unitlist, s ∈ u ∧ t ∈ u := by
  unfold peers units
  rw [List.mem_dedup, List.mem_filter, List.mem_flatten]
  constructor
  · rintro ⟨⟨u, hu, htu⟩, hts⟩
    have hu2 := List.mem_filter.mp hu
    exact ⟨by simpa using hts, u, hu2.1, by simpa using hu2.2, htu⟩
  · rintro ⟨hts, u, hu, hsu, htu⟩
    exact ⟨⟨u, List.mem_filter.mpr ⟨hu, by simpa using hsu⟩, htu⟩, by simpa using hts⟩

lemma peers_symm {t s : Cell} (h : t ∈ peers s) : s ∈ peers t := by
  obtain ⟨hts, u, hu, hsu, htu⟩ := mem_peers_iff.mp h
  exact mem_peers_iff.mpr ⟨fun hc => hts (hc.symm), u, hu, htu, hsu⟩

lemma unit_nodup : ∀ u ∈ unitlist, u.Nodup := by decide

lemma unit_len9 : ∀ u ∈ unitlist, u.length = 9 := by decide

lemma run_elimSeq_clears : ∀ {ts : List Cell} {f : ℕ} {p : Store} {d : ℕ} {p' : Store},
    run f (.elimSeq p ts d) = .res (some p') → ∀ t ∈ ts, d ∉ p' t := by
  intro ts
  induction ts with
  | nil => intro f p d p' h t ht; cases ht
  | cons t0 ts2 ih =>
    intro f p d p' h t ht
    cases f with
    | zero => simp [run] at h
    | succ f =>
      rw [run_succ] at h
      simp only [step] at h
      split at h
      · exact absurd h (by simp)
      · exact absurd h (by simp)
      · rename_i q hq
        rcases List.mem_cons.mp ht with rfl | ht2
        · have h1 : d ∉ q t := run_elim_removes hq
          exact fun hc => h1 ((run_sublist _ _ _ h t).subset hc)
        · exact ih h t ht2

/-- Cleanliness relation: every square is either untouched, or, when it
ends as a singleton, its digit is absent from all its peers. -/
def CleanProp (p p' : Store) : Prop :=
  ∀ x : Cell, p' x = p x ∨ ∀ e, p' x = [e] → ∀ t ∈ peers x, e ∉ p' t

lemma CleanProp_refl (p : Store) : CleanProp p p := fun x => Or.inl rfl

lemma CleanProp_comp {p q p' : Store} (h1 : CleanProp p q) (h2 : CleanProp q p')
    (hsub : ∀ x, List.Sublist (p' x) (q x)) : CleanProp p p' := by
  intro x
  rcases h2 x with h2x | h2x
  · rcases h1 x with h1x | h1x
    · left; rw [h2x, h1x]
    · right
      intro e hx t ht
      rw [h2x] at hx
      exact fun hc => h1x e hx t ht ((hsub t).subset hc)
  · right; exact h2x

/-- Cleanliness invariant of the propagation recursion. -/
theorem run_clean (f : ℕ) : ∀ (c : Call) (p' : Store), run f c = .res (some p') →
    CleanProp c.store p' := by
  induction f with
  | zero => intro c p' h; simp [run] at h
  | succ f ih =>
    intro c p' h
    rw [run_succ] at h
    cases c with
    | elim p s d =>
      simp only [step] at h
      split at h
      · split at h
        · exact absurd h (by simp)
        · rename_i e hrm
          split at h
          · exact absurd h (by simp)
          · exact absurd h (by simp)
          · rename_i p2 hrun
            have hcl2 : CleanProp p2 p' := ih _ _ h
            have hcl1 : CleanProp (removeD p s d) p2 := ih _ _ hrun
            have hclears : ∀ t ∈ peers s, e ∉ p2 t := run_elimSeq_clears hrun
            show CleanProp p p'
            intro x
            by_cases hxs : x = s
            · right
              intro e2 hx2 t ht
              have hsub1 : List.Sublist (p' x) (p2 x) := run_sublist _ _ _ h x
              have hsub2 : List.Sublist (p2 x) (removeD p s d x) := run_sublist _ _ _ hrun x
              have he2 : e2 = e := by
                have hmm : e2 ∈ removeD p s d x :=
                  hsub2.subset (hsub1.subset (by rw [hx2]; exact List.mem_cons_self e2 []))
                rw [hxs, hrm] at hmm
                simpa using hmm
              subst he2
              have ht2 : t ∈ peers s := by rw [← hxs]; exact ht
              exact fun hc => (hclears t ht2) ((run_sublist _ _ _ h t).subset hc)
            · have hcomp : CleanProp (removeD p s d) p' :=
                CleanProp_comp hcl1 hcl2 (run_sublist _ _ _ h)
              rcases hcomp x with hx | hx
              · left; rw [hx, removeD_of_ne p s d hxs]
              · right; exact hx
        · rename_i a b l hrm
          have hcl1 : CleanProp (removeD p s d) p' := ih _ _ h
          show CleanProp p p'
          intro x
          by_cases hxs : x = s
          · rcases hcl1 x with hx | hx
            · right
              intro e2 he2
              rw [hx, hxs, hrm] at he2
              simp at he2
            · right; exact hx
          · rcases hcl1 x with hx | hx
            · left; rw [hx, removeD_of_ne p s d hxs]
            · right; exact hx
      · cases h; exact CleanProp_refl _
    | elimSeq p ts d =>
      simp only [step] at h
      split at h
      · cases h; exact CleanProp_refl _
      · split at h
        · exact absurd h (by simp)
        · exact absurd h (by simp)
        · rename_i p2 hrun
          have hcl1 : CleanProp p p2 := ih _ _ hrun
          have hcl2 : CleanProp p2 p' := ih _ _ h
          show CleanProp p p'
          exact CleanProp_comp hcl1 hcl2 (run_sublist _ _ _ h)
    | assignSeq p s ds =>
      simp only [step] at h
      split at h
      · cases h; exact CleanProp_refl _
      · split at h
        · exact absurd h (by simp)
        · exact absurd h (by simp)
        · rename_i p2 hrun
          have hcl1 : CleanProp p p2 := ih _ _ hrun
          have hcl2 : CleanProp p2 p' := ih _ _ h
          show CleanProp p p'
          exact CleanProp_comp hcl1 hcl2 (run_sublist _ _ _ h)
    | unitSeq p s d us =>
      simp only [step] at h
      split at h
      · cases h; exact CleanProp_refl _
      · split at h
        · exact absurd h (by simp)
        · rename_i y hy0
          split at h
          · exact absurd h (by simp)
          · exact absurd h (by simp)
          · rename_i q1 hq1
            have hcl1 : CleanProp p q1 := ih _ _ hq1
            have hcl2 : CleanProp q1 p' := ih _ _ h
            show CleanProp p p'
            exact CleanProp_comp hcl1 hcl2 (run_sublist _ _ _ h)
        · have hcl1 : CleanProp p p' := ih _ _ h
          exact hcl1

lemma sublist_singleton_eq {l : List ℕ} {a : ℕ}
    (h : List.Sublist l [a]) (hne : l ≠ []) : l = [a] := by
  cases hl : l with
  | nil => exact absurd hl hne
  | cons b t =>
    rw [hl] at h
    have hb : b = a := by
      have := h.subset (List.mem_cons_self b t)
      simpa using this
    have hlen := h.length_le
    cases ht : t with
    | nil => rw [hb]
    | cons c t2 =>
      rw [ht] at hlen
      simp at hlen

lemma assignSeq_all_eq {f : ℕ} {p : Store} {y : Cell} {d : ℕ} {q1 : Store}
    (h : run f (.assignSeq p y ((p y).filter (fun e => decide (e ≠ d)))) = .res (some q1)) :
    ∀ z ∈ q1 y, z = d := by
  intro z hz
  by_contra hzd
  have hz_in_p : z ∈ p y := (run_sublist _ _ _ h y).subset hz
  have hz_in_ds : z ∈ (p y).filter (fun e => decide (e ≠ d)) :=
    List.mem_filter.mpr ⟨hz_in_p, by simpa using hzd⟩
  exact (run_assignSeq_removes h z hz_in_ds) hz

/-- A justified disappearance of a candidate: either a peer ended pinned
to that digit, or the square's own candidates all collapsed to one
digit. -/
def DropJust (p' : Store) (x : Cell) (e : ℕ) : Prop :=
  (∃ t ∈ peers x, p' t = [e]) ∨ (∃ dd, ∀ z ∈ p' x, z = dd)

/-- The one unjustified removal a call may perform itself: its own
target square and digit. -/
def DropEx : Call → Cell → ℕ → Prop
  | .elim _ s d, x, e => x = s ∧ e = d
  | .elimSeq _ ts d, x, e => x ∈ ts ∧ e = d
  | .assignSeq _ s ds, x, e => x = s ∧ e ∈ ds
  | .unitSeq _ _ _ _, _, _ => False

lemma DropJust_mono {q p' : Store} {x : Cell} {e : ℕ} (hj : DropJust q x e)
    (hsub : ∀ y, List.Sublist (p' y) (q y)) (hne : ∀ y, q y ≠ [] → p' y ≠ []) :
    DropJust p' x e := by
  rcases hj with ⟨t, ht, hq⟩ | ⟨dd, hdd⟩
  · left
    refine ⟨t, ht, ?_⟩
    have h1 : List.Sublist (p' t) [e] := hq ▸ hsub t
    have h2 : p' t ≠ [] := hne t (by rw [hq]; simp)
    exact sublist_singleton_eq h1 h2
  · right
    exact ⟨dd, fun z hz => hdd z ((hsub x).subset hz)⟩

/-- Drop-justification invariant: every candidate a successful call
removes is either the call's own target, or is justified in the final
store by a pinned peer or by the square collapsing to one digit. -/
theorem run_drops (f : ℕ) : ∀ (c : Call) (p' : Store), run f c = .res (some p') →
    ∀ x e, e ∈ c.store x → e ∉ p' x → DropEx c x e ∨ DropJust p' x e := by
  induction f with
  | zero => intro c p' h; simp [run] at h
  | succ f ih =>
    intro c p' h
    rw [run_succ] at h
    cases c with
    | elim p s d =>
      simp only [step] at h
      split at h
      · split at h
        · exact absurd h (by simp)
        · rename_i e0 hrm
          split at h
          · exact absurd h (by simp)
          · exact absurd h (by simp)
          · rename_i p2 hrun
            intro x e he hne'
            show (x = s ∧ e = d) ∨ DropJust p' x e
            by_cases h1 : e ∈ removeD p s d x
            · by_cases h2 : e ∈ p2 x
              · rcases ih _ _ h x e h2 hne' with hex | hj
                · exact absurd hex (by simp [DropEx])
                · exact Or.inr hj
              · rcases ih _ _ hrun x e h1 h2 with hex | hj
                · obtain ⟨hxp, he0⟩ := hex
                  subst he0
                  right; left
                  refine ⟨s, peers_symm hxp, ?_⟩
                  have ha : removeD p s d s ≠ [] := by rw [hrm]; simp
                  have hb : p2 s ≠ [] := run_nonempty _ _ _ hrun s ha
                  have hc : p' s ≠ [] := run_nonempty _ _ _ h s hb
                  have hd2 : List.Sublist (p' s) [e] := by
                    rw [← hrm]
                    exact (run_sublist _ _ _ h s).trans (run_sublist _ _ _ hrun s)
                  exact sublist_singleton_eq hd2 hc
                · exact Or.inr (DropJust_mono hj (run_sublist _ _ _ h)
                    (run_nonempty _ _ _ h))
            · left
              by_cases hxs : x = s
              · refine ⟨hxs, ?_⟩
                rw [hxs] at h1 he
                rw [removeD_self] at h1
                by_contra hed
                exact h1 (List.mem_filter.mpr ⟨he, by simpa using hed⟩)
              · rw [removeD_of_ne p s d hxs] at h1
                exact absurd he h1
        · rename_i a b l hrm
          intro x e he hne'
          show (x = s ∧ e = d) ∨ DropJust p' x e
          by_cases h1 : e ∈ removeD p s d x
          · rcases ih _ _ h x e h1 hne' with hex | hj
            · exact absurd hex (by simp [DropEx])
            · exact Or.inr hj
          · left
            by_cases hxs : x = s
            · refine ⟨hxs, ?_⟩
              rw [hxs] at h1 he
              rw [removeD_self] at h1
              by_contra hed
              exact h1 (List.mem_filter.mpr ⟨he, by simpa using hed⟩)
            · rw [removeD_of_ne p s d hxs] at h1
              exact absurd he h1
      · cases h
        intro x e he hne'
        exact absurd he hne'
    | elimSeq p ts d =>
      simp only [step] at h
      split at h
      · cases h; intro x e he hne'; exact absurd he hne'
      · rename_i t ts2
        split at h
        · exact absurd h (by simp)
        · exact absurd h (by simp)
        · rename_i p2 hrun
          intro x e he hne'
          show (x ∈ t :: ts2 ∧ e = d) ∨ DropJust p' x e
          by_cases h1 : e ∈ p2 x
          · rcases ih _ _ h x e h1 hne' with hex | hj
            · exact Or.inl ⟨List.mem_cons_of_mem t hex.1, hex.2⟩
            · exact Or.inr hj
          · rcases ih _ _ hrun x e he h1 with hex | hj
            · exact Or.inl ⟨by rw [hex.1]; exact List.mem_cons_self t ts2, hex.2⟩
            · exact Or.inr (DropJust_mono hj (run_sublist _ _ _ h)
                (run_nonempty _ _ _ h))
    | assignSeq p s ds =>
      simp only [step] at h
      split at h
      · cases h; intro x e he hne'; exact absurd he hne'
      · rename_i d ds2
        split at h
        · exact absurd h (by simp)
        · exact absurd h (by simp)
        · rename_i p2 hrun
          intro x e he hne'
          show (x = s ∧ e ∈ d :: ds2) ∨ DropJust p' x e
          by_cases h1 : e ∈ p2 x
          · rcases ih _ _ h x e h1 hne' with hex | hj
            · exact Or.inl ⟨hex.1, List.mem_cons_of_mem d hex.2⟩
            · exact Or.inr hj
          · rcases ih _ _ hrun x e he h1 with hex | hj
            · exact Or.inl ⟨hex.1, by rw [hex.2]; exact List.mem_cons_self d ds2⟩
            · exact Or.inr (DropJust_mono hj (run_sublist _ _ _ h)
                (run_nonempty _ _ _ h))
    | unitSeq p s d us =>
      simp only [step] at h
      split at h
      · cases h; intro x e he hne'; exact absurd he hne'
      · rename_i u0 us2
        split at h
        · exact absurd h (by simp)
        · rename_i y hy0
          split at h
          · exact absurd h (by simp)
          · exact absurd h (by simp)
          · rename_i q1 hq1
            intro x e he hne'
            show False ∨ DropJust p' x e
            by_cases h1 : e ∈ q1 x
            · rcases ih _ _ h x e h1 hne' with hex | hj
              · exact absurd hex (by simp [DropEx])
              · exact Or.inr hj
            · rcases ih _ _ hq1 x e he h1 with hex | hj
              · obtain ⟨hxy, _⟩ := hex
                right; right
                refine ⟨d, ?_⟩
                intro z hz
                rw [hxy] at hz
                exact assignSeq_all_eq hq1 z ((run_sublist _ _ _ h y).subset hz)
              · exact Or.inr (DropJust_mono hj (run_sublist _ _ _ h)
                  (run_nonempty _ _ _ h))
        · rename_i a b l hy0
          intro x e he hne'
          show False ∨ DropJust p' x e
          rcases ih _ _ h x e he hne' with hex | hj
          · exact absurd hex (by simp [DropEx])
          · exact Or.inr hj

lemma digits_nodup : digits.Nodup := by decide

lemma eq_singleton_of_subset {α : Type} {l : List α} {a : α}
    (hne : l ≠ []) (hnd : l.Nodup) (hsub : ∀ z ∈ l, z = a) : l = [a] := by
  cases hl : l with
  | nil => exact absurd hl hne
  | cons b t =>
    rw [hl] at hsub hnd
    have hb : b = a := hsub b (List.mem_cons_self b t)
    cases ht : t with
    | nil => rw [hb]
    | cons c t2 =>
      rw [ht] at hsub hnd
      have hc : c = a := hsub c (by simp)
      have hbc : b ≠ c := by
        intro hbc
        exact (List.nodup_cons.mp hnd).1 (by rw [hbc]; simp)
      exact absurd (hb.trans hc.symm) hbc

/-- A store at which constraint propagation has nothing left to do:
candidates are sublists of the digit string and nonempty, every unit
keeps a place for every digit, a singleton square's digit is absent
from its peers, and a digit reduced to one place in a unit has that
place pinned to it. Every successful `parse_grid` result is such a
store, as proved below. -/
def Fixpt (P : Store) : Prop :=
  (∀ x, List.Sublist (P x) digits) ∧ (∀ x, P x ≠ []) ∧ hasPlaces P
  ∧ (∀ x e, P x = [e] → ∀ t ∈ peers x, e ∉ P t)
  ∧ (∀ u ∈ unitlist, ∀ e ∈ digits, ∀ y, digit_places P u e = [y] → ∀ z ∈ P y, z = e)

/-- Side condition stating that a call's own removals never touch the
candidates recorded in `P`. -/
def ACond (P : Store) : Call → Prop
  | .elim _ s d => d ∈ digits ∧ d ∉ P s
  | .elimSeq _ ts d => d ∈ digits ∧ ∀ t ∈ ts, d ∉ P t
  | .assignSeq _ s ds => ∀ e ∈ ds, e ∈ digits ∧ e ∉ P s
  | .unitSeq _ _ d us => d ∈ digits ∧ ∀ u ∈ us, u ∈ unitlist

/-- Propagation above a fixpoint store never fails and stays above it:
if the call store contains every candidate of `P` and the call's own
removals avoid `P`, the run returns a store still containing every
candidate of `P`. -/
theorem run_above {P : Store} (hP : Fixpt P) :
    ∀ (f : ℕ) (c : Call) (r : Option Store), run f c = .res r →
    (∀ x, List.Sublist (c.store x) digits) →
    (∀ x, ∀ e ∈ P x, e ∈ c.store x) →
    ACond P c →
    ∃ q, r = some q ∧ ∀ x, ∀ e ∈ P x, e ∈ q x := by
  obtain ⟨hW, hne, hpl, hSF1, hSF2⟩ := hP
  intro f
  induction f with
  | zero => intro c r h; simp [run] at h
  | succ f ih =>
    intro c r h hwf hab hac
    rw [run_succ] at h
    cases c with
    | elim p s d =>
      have hwfp : ∀ x, List.Sublist (p x) digits := hwf
      have habp : ∀ x, ∀ e ∈ P x, e ∈ p x := hab
      obtain ⟨hd9, hdP⟩ := hac
      simp only [step] at h
      split at h
      · have hab1 : ∀ x, ∀ e ∈ P x, e ∈ removeD p s d x := by
          intro x e he
          by_cases hxs : x = s
          · subst hxs
            rw [removeD_self]
            refine List.mem_filter.mpr ⟨habp x e he, ?_⟩
            simp only [decide_eq_true_eq]
            intro hed
            exact hdP (hed ▸ he)
          · rw [removeD_of_ne p s d hxs]
            exact habp x e he
        have hwf1 : ∀ x, List.Sublist (removeD p s d x) digits :=
          fun x => (removeD_sublist p s d x).trans (hwfp x)
        split at h
        · rename_i hrm
          exfalso
          obtain ⟨e, he⟩ := List.exists_mem_of_ne_nil _ (hne s)
          have hm := hab1 s e he
          rw [hrm] at hm
          exact (List.not_mem_nil e) hm
        · rename_i e0 hrm
          have hPs : P s = [e0] := by
            apply eq_singleton_of_subset (hne s) (List.Nodup.sublist (hW s) digits_nodup)
            intro z hz
            have hm := hab1 s z hz
            rw [hrm] at hm
            simpa using hm
          have he0dig : e0 ∈ digits :=
            (hwf1 s).subset (by rw [hrm]; exact List.mem_cons_self e0 [])
          have hacSeq : ACond P (.elimSeq (removeD p s d) (peers s) e0) :=
            ⟨he0dig, fun t ht => hSF1 s e0 hPs t ht⟩
          split at h
          · exact absurd h (by simp)
          · rename_i hrun
            obtain ⟨q, hq, _⟩ := ih _ _ hrun hwf1 hab1 hacSeq
            exact absurd hq (by simp)
          · rename_i p2 hrun
            have hab2 : ∀ x, ∀ e ∈ P x, e ∈ p2 x := by
              obtain ⟨q2, hq2, h2⟩ := ih _ _ hrun hwf1 hab1 hacSeq
              cases Option.some.inj hq2
              exact h2
            have hwf2 : ∀ x, List.Sublist (p2 x) digits :=
              fun x => (run_sublist _ _ _ hrun x).trans (hwf1 x)
            have hacU : ACond P (.unitSeq p2 s d (units s)) := by
              refine ⟨hd9, ?_⟩
              intro u hu
              simp only [units] at hu
              exact List.mem_of_mem_filter hu
            exact ih _ _ h hwf2 hab2 hacU
        · rename_i a b l hrm
          have hacU : ACond P (.unitSeq (removeD p s d) s d (units s)) := by
            refine ⟨hd9, ?_⟩
            intro u hu
            simp only [units] at hu
            exact List.mem_of_mem_filter hu
          exact ih _ _ h hwf1 hab1 hacU
      · exact ⟨p, (PRes.res.inj h).symm, habp⟩
    | elimSeq p ts d =>
      have hwfp : ∀ x, List.Sublist (p x) digits := hwf
      have habp : ∀ x, ∀ e ∈ P x, e ∈ p x := hab
      obtain ⟨hd9, htsP⟩ := hac
      simp only [step] at h
      split at h
      · exact ⟨p, (PRes.res.inj h).symm, habp⟩
      · rename_i t ts2
        have hacE : ACond P (.elim p t d) := ⟨hd9, htsP t (List.mem_cons_self t ts2)⟩
        split at h
        · exact absurd h (by simp)
        · rename_i hrun
          obtain ⟨q, hq, _⟩ := ih _ _ hrun hwfp habp hacE
          exact absurd hq (by simp)
        · rename_i p2 hrun
          have hab2 : ∀ x, ∀ e ∈ P x, e ∈ p2 x := by
            obtain ⟨q2, hq2, h2⟩ := ih _ _ hrun hwfp habp hacE
            cases Option.some.inj hq2
            exact h2
          have hwf2 : ∀ x, List.Sublist (p2 x) digits :=
            fun x => (run_sublist _ _ _ hrun x).trans (hwfp x)
          have hacS : ACond P (.elimSeq p2 ts2 d) :=
            ⟨hd9, fun t2 ht2 => htsP t2 (List.mem_cons_of_mem t ht2)⟩
          exact ih _ _ h hwf2 hab2 hacS
    | assignSeq p s ds =>
      have hwfp : ∀ x, List.Sublist (p x) digits := hwf
      have habp : ∀ x, ∀ e ∈ P x, e ∈ p x := hab
      simp only [step] at h
      split at h
      · exact ⟨p, (PRes.res.inj h).symm, habp⟩
      · rename_i d ds2
        obtain ⟨hd9, hdP⟩ := hac d (List.mem_cons_self d ds2)
        have hacE : ACond P (.elim p s d) := ⟨hd9, hdP⟩
        split at h
        · exact absurd h (by simp)
        · rename_i hrun
          obtain ⟨q, hq, _⟩ := ih _ _ hrun hwfp habp hacE
          exact absurd hq (by simp)
        · rename_i p2 hrun
          have hab2 : ∀ x, ∀ e ∈ P x, e ∈ p2 x := by
            obtain ⟨q2, hq2, h2⟩ := ih _ _ hrun hwfp habp hacE
            cases Option.some.inj hq2
            exact h2
          have hwf2 : ∀ x, List.Sublist (p2 x) digits :=
            fun x => (run_sublist _ _ _ hrun x).trans (hwfp x)
          have hacS : ACond P (.assignSeq p2 s ds2) :=
            fun e he => hac e (List.mem_cons_of_mem d he)
          exact ih _ _ h hwf2 hab2 hacS
    | unitSeq p s d us =>
      have hwfp : ∀ x, List.Sublist (p x) digits := hwf
      have habp : ∀ x, ∀ e ∈ P x, e ∈ p x := hab
      obtain ⟨hd9, husU⟩ := hac
      simp only [step] at h
      split at h
      · exact ⟨p, (PRes.res.inj h).symm, habp⟩
      · rename_i u0 us2
        have hu0 : u0 ∈ unitlist := husU u0 (List.mem_cons_self u0 us2)
        split at h
        · rename_i hy0
          exfalso
          have hne0 : digit_places P u0 d ≠ [] := hpl u0 hu0 d hd9
          obtain ⟨y, hy⟩ := List.exists_mem_of_ne_nil _ hne0
          simp only [digit_places] at hy
          have hy2 := List.mem_filter.mp hy
          have hyQ : y ∈ u0.filter (fun y => decide (d ∈ p y)) := by
            refine List.mem_filter.mpr ⟨hy2.1, ?_⟩
            simp only [decide_eq_true_eq]
            exact habp y d (by simpa using hy2.2)
          rw [hy0] at hyQ
          exact (List.not_mem_nil y) hyQ
        · rename_i y hy0
          have hdpP : digit_places P u0 d = [y] := by
            apply eq_singleton_of_subset (hpl u0 hu0 d hd9)
              (List.Nodup.filter _ (unit_nodup u0 hu0))
            intro z hz
            simp only [digit_places] at hz
            have hz2 := List.mem_filter.mp hz
            have hzQ : z ∈ u0.filter (fun y => decide (d ∈ p y)) := by
              refine List.mem_filter.mpr ⟨hz2.1, ?_⟩
              simp only [decide_eq_true_eq]
              exact habp z d (by simpa using hz2.2)
            rw [hy0] at hzQ
            simpa using hzQ
          have hpin : ∀ z ∈ P y, z = d := hSF2 u0 hu0 d hd9 y hdpP
          have hacA : ACond P (.assignSeq p y ((p y).filter (fun e => decide (e ≠ d)))) := by
            intro e he
            have he2 := List.mem_filter.mp he
            refine ⟨(hwfp y).subset he2.1, ?_⟩
            intro heP
            have hed : e = d := hpin e heP
            have hned : e ≠ d := by simpa using he2.2
            exact hned hed
          split at h
          · exact absurd h (by simp)
          · rename_i hrun
            obtain ⟨q, hq, _⟩ := ih _ _ hrun hwfp habp hacA
            exact absurd hq (by simp)
          · rename_i p2 hrun
            have hab2 : ∀ x, ∀ e ∈ P x, e ∈ p2 x := by
              obtain ⟨q2, hq2, h2⟩ := ih _ _ hrun hwfp habp hacA
              cases Option.some.inj hq2
              exact h2
            have hwf2 : ∀ x, List.Sublist (p2 x) digits :=
              fun x => (run_sublist _ _ _ hrun x).trans (hwfp x)
            have hacU2 : ACond P (.unitSeq p2 s d us2) :=
              ⟨hd9, fun u hu => husU u (List.mem_cons_of_mem u0 hu)⟩
            exact ih _ _ h hwf2 hab2 hacU2
        · rename_i a b l hy0
          have hacU2 : ACond P (.unitSeq p s d us2) :=
            ⟨hd9, fun u hu => husU u (List.mem_cons_of_mem u0 hu)⟩
          exact ih _ _ h hwfp habp hacU2

lemma assign_run {p : Store} {s : Cell} {d : ℕ} {r : Option Store}
    (h : assign p s d = r) :
    run (Fm (.assignSeq p s ((p s).filter (fun e => decide (e ≠ d)))) + 1)
      (.assignSeq p s ((p s).filter (fun e => decide (e ≠ d)))) = .res r :=
  assignList_run h

lemma assign_clean {p : Store} {s : Cell} {d : ℕ} {q : Store}
    (h : assign p s d = some q) : CleanProp p q := by
  have hb := assign_run h
  have hc : CleanProp p q := run_clean _ _ _ hb
  exact hc

lemma assign_pin {p : Store} {s : Cell} {d : ℕ} {q : Store}
    (h : assign p s d = some q) : ∀ z ∈ q s, z = d :=
  assignSeq_all_eq (assign_run h)

lemma assign_drops {p : Store} {s : Cell} {d : ℕ} {q : Store}
    (h : assign p s d = some q) :
    ∀ x e, e ∈ p x → e ∉ q x → DropJust q x e := by
  intro x e he hne'
  have hb := assign_run h
  rcases run_drops _ _ _ hb x e he hne' with hex | hj
  · have hex2 : x = s ∧ e ∈ (p s).filter (fun e => decide (e ≠ d)) := hex
    right
    refine ⟨d, ?_⟩
    intro z hz
    rw [hex2.1] at hz
    exact assign_pin h z hz
  · exact hj

/-- A successful `assign` of the digit a fixpoint store pins at the
square succeeds on any store above the fixpoint and stays above it. -/
lemma assign_above {P p : Store} (hP : Fixpt P)
    (hwf : ∀ x, List.Sublist (p x) digits)
    (hab : ∀ x, ∀ e ∈ P x, e ∈ p x)
    {s : Cell} {d : ℕ} (hPs : P s = [d]) :
    ∃ q, assign p s d = some q ∧ ∀ x, ∀ e ∈ P x, e ∈ q x := by
  have hb := assign_run (rfl : assign p s d = assign p s d)
  have hacA : ACond P (.assignSeq p s ((p s).filter (fun e => decide (e ≠ d)))) := by
    intro e he
    have he2 := List.mem_filter.mp he
    refine ⟨(hwf s).subset he2.1, ?_⟩
    intro heP
    rw [hPs] at heP
    have hed : e = d := by simpa using heP
    exact (by simpa using he2.2 : e ≠ d) hed
  obtain ⟨q, hq, habq⟩ := run_above hP _ _ _ hb hwf hab hacA
  exact ⟨q, hq, habq⟩

lemma parseAssigns_PL : ∀ (items : List (Cell × Char)) (p0 p : Store),
    parseAssigns items p0 = some p → ∀ u ∈ unitlist, ∀ e, PL p0 p u e := by
  intro items
  induction items with
  | nil => intro p0 p h u hu e; cases h; exact PL_refl p0 u e
  | cons sc rest ih =>
    intro p0 p h u hu e
    obtain ⟨s, c⟩ := sc
    unfold parseAssigns at h
    split at h
    · split at h
      · exact absurd h (by simp)
      · rename_i q hq
        exact PL_comp (assign_places hq u hu e) (ih q p h u hu e)
          ((parseAssigns_inv rest q p h).1)
    · exact ih p0 p h u hu e

lemma parseAssigns_clean : ∀ (items : List (Cell × Char)) (p0 p : Store),
    parseAssigns items p0 = some p → CleanProp p0 p := by
  intro items
  induction items with
  | nil => intro p0 p h; cases h; exact CleanProp_refl p0
  | cons sc rest ih =>
    intro p0 p h
    obtain ⟨s, c⟩ := sc
    unfold parseAssigns at h
    split at h
    · split at h
      · exact absurd h (by simp)
      · rename_i q hq
        exact CleanProp_comp (assign_clean hq) (ih q p h) ((parseAssigns_inv rest q p h).1)
    · exact ih p0 p h

lemma parseAssigns_drops : ∀ (items : List (Cell × Char)) (p0 p : Store),
    parseAssigns items p0 = some p → ∀ x e, e ∈ p0 x → e ∉ p x → DropJust p x e := by
  intro items
  induction items with
  | nil => intro p0 p h x e he hne'; cases h; exact absurd he hne'
  | cons sc rest ih =>
    intro p0 p h x e he hne'
    obtain ⟨s, c⟩ := sc
    unfold parseAssigns at h
    split at h
    · split at h
      · exact absurd h (by simp)
      · rename_i q hq
        by_cases h1 : e ∈ q x
        · exact ih q p h x e h1 hne'
        · exact DropJust_mono (assign_drops hq x e he h1)
            ((parseAssigns_inv rest q p h).1) ((parseAssigns_inv rest q p h).2.2)
    · exact ih p0 p h x e he hne'

lemma parse_parseAssigns {g : List Char} {P : Store}
    (h : parse_grid g = some (some P)) :
    ∃ cs, grid_values g = some cs ∧ parseAssigns (squares.zip cs) initStore = some P := by
  unfold parse_grid at h
  rcases hgv : grid_values g with _ | cs <;> rw [hgv] at h
  · exact absurd h (by simp)
  · have h2 : some (parseAssigns (squares.zip cs) initStore) = some (some P) := h
    exact ⟨cs, rfl, Option.some.inj h2⟩

/-- Every successful `parse_grid` result is a fixpoint store. -/
lemma parse_fixpt {g : List Char} {P : Store}
    (h : parse_grid g = some (some P)) : Fixpt P := by
  obtain ⟨hsub, hpl, hne⟩ := parse_grid_inv h
  obtain ⟨cs, hgv, hpa⟩ := parse_parseAssigns h
  refine ⟨hsub, hne, hpl, ?_, ?_⟩
  · have hcl : CleanProp initStore P := parseAssigns_clean _ _ _ hpa
    intro x e hx t ht
    rcases hcl x with hcx | hcx
    · exfalso
      rw [hx] at hcx
      have hlen := congrArg List.length hcx
      simp [initStore, digits] at hlen
    · exact hcx e hx t ht
  · have hPL : ∀ u ∈ unitlist, ∀ e, PL initStore P u e := parseAssigns_PL _ _ _ hpa
    intro u hu e he9 y hdp z hz
    rcases hPL u hu e with hpe | ⟨_, hpin⟩
    · exfalso
      have hdpi : digit_places initStore u e = u := by
        unfold digit_places
        apply List.filter_eq_self.mpr
        intro w _
        simpa [initStore] using he9
      rw [hdpi, hdp] at hpe
      have hlen := congrArg List.length hpe
      rw [unit_len9 u hu] at hlen
      simp at hlen
    · exact hpin y hdp z hz

lemma digitChar_mem : ∀ d ∈ digits, Char.ofNat (d + 48) ∈ digitChars := by decide

lemma charDigit_ofNat : ∀ d ∈ digits, charDigit (Char.ofNat (d + 48)) = d := by decide

lemma dot_not_digitChar : '.' ∉ digitChars := by decide

lemma to_string_length (P : Store) : (to_string P).length = 81 := by
  unfold to_string
  rw [List.length_map]
  decide

lemma value_or_dot_cases {v : List ℕ} (hv : List.Sublist v digits) :
    value_or_dot v ∈ digitChars ∨ value_or_dot v = '.' := by
  cases v with
  | nil => right; rfl
  | cons a t =>
    cases t with
    | nil =>
      left
      have ha : a ∈ digits := hv.subset (List.mem_cons_self a [])
      exact digitChar_mem a ha
    | cons b t2 => right; rfl

/-- The serialization of a store with digit-sublist candidates survives
the character filter of `grid_values` and has the right length, so it
reparses without tripping the assertion. -/
lemma grid_values_to_string {P : Store} (hW : ∀ x, List.Sublist (P x) digits) :
    grid_values (to_string P) = some (to_string P) := by
  have hfe : (to_string P).filter
      (fun c => decide (c ∈ digitChars) || decide (c = '0') || decide (c = '.'))
      = to_string P := by
    apply List.filter_eq_self.mpr
    intro c hc
    simp only [Bool.or_eq_true, decide_eq_true_eq]
    unfold to_string at hc
    obtain ⟨s, hs, hcs⟩ := List.mem_map.mp hc
    rw [← hcs]
    rcases value_or_dot_cases (hW s) with hd | hd
    · exact Or.inl (Or.inl hd)
    · exact Or.inr hd
  simp only [grid_values]
  rw [hfe]
  rw [if_pos (to_string_length P)]

lemma zip_map_self {α β : Type} (f : α → β) :
    ∀ (l : List α), l.zip (l.map f) = l.map (fun a => (a, f a)) := by
  intro l
  induction l with
  | nil => rfl
  | cons a t ih => simp [ih]

/-- The reparsing fold over the serialized characters of a fixpoint
store `P`: starting from any store above `P`, it succeeds, its result
stays above `P`, and every square `P` pins to one digit comes out
pinned to that digit. -/
lemma reparse_go {P : Store} (hP : Fixpt P) :
    ∀ (l : List Cell) (Q : Store),
    (∀ x, List.Sublist (Q x) digits) →
    (∀ x, ∀ e ∈ P x, e ∈ Q x) →
    ∃ R, parseAssigns (l.map (fun s => (s, value_or_dot (P s)))) Q = some R
      ∧ (∀ x, ∀ e ∈ P x, e ∈ R x)
      ∧ (∀ s ∈ l, ∀ d, P s = [d] → R s = [d]) := by
  intro l
  induction l with
  | nil =>
    intro Q hwf hab
    exact ⟨Q, rfl, hab, by simp⟩
  | cons s0 rest ih =>
    intro Q hwf hab
    simp only [List.map_cons, parseAssigns]
    cases hps : P s0 with
    | nil => exact absurd hps (hP.2.1 s0)
    | cons a t =>
      cases t with
      | nil =>
        have ha9 : a ∈ digits := (hP.1 s0).subset (by rw [hps]; exact List.mem_cons_self a [])
        rw [show value_or_dot [a] = Char.ofNat (a + 48) from rfl]
        rw [if_pos (digitChar_mem a ha9)]
        rw [charDigit_ofNat a ha9]
        obtain ⟨q, hq, habq⟩ := assign_above hP hwf hab hps
        rw [hq]
        have hwfq : ∀ x, List.Sublist (q x) digits :=
          fun x => (assign_sublist hq x).trans (hwf x)
        obtain ⟨R, h1, h2, h3⟩ := ih q hwfq habq
        refine ⟨R, h1, h2, ?_⟩
        intro s hs d hd
        rcases List.mem_cons.mp hs with rfl | hs2
        · rw [hps] at hd
          have had : a = d := by simpa using hd
          subst had
          have hsubq : List.Sublist (R s) (q s) := (parseAssigns_inv _ _ _ h1).1 s
          have hall : ∀ z ∈ R s, z = a := fun z hz => assign_pin hq z (hsubq.subset hz)
          have hmem : a ∈ R s := h2 s a (by rw [hps]; exact List.mem_cons_self a [])
          have hnodup : (R s).Nodup :=
            List.Nodup.sublist (hsubq.trans (hwfq s)) digits_nodup
          exact eq_singleton_of_subset (List.ne_nil_of_mem hmem) hnodup hall
        · exact h3 s hs2 d hd
      | cons b t2 =>
        rw [show value_or_dot (a :: b :: t2) = '.' from rfl]
        rw [if_neg dot_not_digitChar]
        obtain ⟨R, h1, h2, h3⟩ := ih Q hwf hab
        refine ⟨R, h1, h2, ?_⟩
        intro s hs d hd
        rcases List.mem_cons.mp hs with rfl | hs2
        · rw [hps] at hd
          have hlen := congrArg List.length hd
          simp at hlen
        · exact h3 s hs2 d hd

lemma filter_mem_of_sublist {α : Type} [DecidableEq α] :
    ∀ {l L : List α}, List.Sublist l L → L.Nodup →
    L.filter (fun a => decide (a ∈ l)) = l := by
  intro l L h
  induction h with
  | slnil => intro hN; rfl
  | cons b hsub ih =>
    rename_i l1 L2
    intro hN
    have hN2 := List.nodup_cons.mp hN
    have hb : b ∉ l1 := fun hc => hN2.1 (hsub.subset hc)
    simp only [List.filter_cons]
    rw [if_neg (by simpa using hb)]
    exact ih hN2.2
  | cons₂ b hsub ih =>
    rename_i l1 L2
    intro hN
    have hN2 := List.nodup_cons.mp hN
    simp only [List.filter_cons]
    rw [if_pos (by simp)]
    have hcongr : ∀ x ∈ L2, (decide (x ∈ b :: l1)) = (decide (x ∈ l1)) := by
      intro x hx
      have hxb : x ≠ b := fun hc => hN2.1 (hc ▸ hx)
      apply decide_eq_decide.mpr
      simp [List.mem_cons, hxb]
    rw [List.filter_congr hcongr]
    rw [ih hN2.2]

lemma sublist_eq_of_mem_iff {α : Type} [DecidableEq α] {l1 l2 L : List α}
    (h1 : List.Sublist l1 L) (h2 : List.Sublist l2 L) (hN : L.Nodup)
    (h : ∀ a, a ∈ l1 ↔ a ∈ l2) : l1 = l2 := by
  have e1 := filter_mem_of_sublist h1 hN
  have e2 := filter_mem_of_sublist h2 hN
  rw [← e1, ← e2]
  apply List.filter_congr
  intro x _
  exact decide_eq_decide.mpr (h x)

/-- C9: serialization round-trip — for every grid on which `parse_grid`
returns a non-failed store `P`, serializing `P` with `to_string` (each
single-candidate square as its digit character, every other square as a
dot) and reparsing that 81-character string reproduces `P` exactly. -/
theorem C9_roundtrip (g : List Char) (P : Store)
    (h : parse_grid g = some (some P)) :
    parse_grid (to_string P) = some (some P) := by
  have hfix : Fixpt P := parse_fixpt h
  have hW : ∀ x, List.Sublist (P x) digits := hfix.1
  have hne : ∀ x, P x ≠ [] := hfix.2.1
  obtain ⟨cs, hgv0, hpa0⟩ := parse_parseAssigns h
  have hdrop : ∀ x e, e ∈ digits → e ∉ P x → DropJust P x e := by
    intro x e he9 henp
    exact parseAssigns_drops _ _ _ hpa0 x e (show e ∈ initStore x from he9) henp
  have hzip : squares.zip (to_string P) = squares.map (fun s => (s, value_or_dot (P s))) := by
    unfold to_string
    exact zip_map_self _ squares
  obtain ⟨R, h1, h2, h3⟩ := reparse_go hfix squares initStore
    (fun x => List.Sublist.refl digits) (fun x e he => (hW x).subset he)
  have hclean : CleanProp initStore R := parseAssigns_clean _ _ _ h1
  have hsubR : ∀ x, List.Sublist (R x) digits := by
    intro x
    have hx := (parseAssigns_inv _ _ _ h1).1 x
    exact hx
  have hRP : R = P := by
    funext x
    apply sublist_eq_of_mem_iff (hsubR x) (hW x) digits_nodup
    intro e
    constructor
    · intro heR
      by_contra heP
      have he9 : e ∈ digits := (hsubR x).subset heR
      have hdj : (∃ t ∈ peers x, P t = [e]) ∨ (∃ dd, ∀ z ∈ P x, z = dd) :=
        hdrop x e he9 heP
      rcases hdj with ⟨t, ht, hPt⟩ | ⟨dd, hdd⟩
      · have hRt : R t = [e] := h3 t (mem_squares t) e hPt
        rcases hclean t with hct | hct
        · rw [hRt] at hct
          have hlen := congrArg List.length hct
          simp [initStore, digits] at hlen
        · exact (hct e hRt x (peers_symm ht)) heR
      · have hx1 : P x = [dd] :=
          eq_singleton_of_subset (hne x) (List.Nodup.sublist (hW x) digits_nodup) hdd
        have hx2 : R x = [dd] := h3 x (mem_squares x) dd hx1
        rw [hx2] at heR
        have hedd : e = dd := by simpa using heR
        rw [hedd, hx1] at heP
        exact heP (List.mem_cons_self dd [])
    · intro heP
      exact h2 x e heP
  show (grid_values (to_string P)).map (fun cs2 => parseAssigns (squares.zip cs2) initStore)
    = some (some P)
  rw [grid_values_to_string hW]
  show some (parseAssigns (squares.zip (to_string P)) initStore) = some (some P)
  rw [hzip, h1, hRP]

set_option maxRecDepth 8000 in
/-- Witness for C9: the empty grid parses to the all-candidates store,
whose serialization (81 dots) reparses to it. -/
theorem C9_witness : parse_grid (to_string initStore) = some (some initStore) :=
  C9_roundtrip dotsGrid initStore (by rfl)

end Sudoku
